import Mathlib

/-!
# Verification of the Hikari-Chain privacy module (Phase 1)

This file shallowly embeds the cryptographic core and the pool state machine
of the `x/privacy` module: secp256k1 affine arithmetic as exposed by the Go
`crypto/elliptic`-style interface (affine points, with `(0, 0)` standing for
the point at infinity in the results of `Add`/`ScalarMult`), Pedersen
commitments, stealth addresses, nullifiers, ECDSA signature verification, and
the `Shield` / `PrivateTransfer` / `Unshield` message handlers, and proves the
specification claims about them.

Machine integers are embedded as `Nat` with explicit `% 2 ^ w` where overflow
matters; byte strings are `List Nat` with each element `< 256`; fallible Go
functions returning `(T, error)` or nil-able pointers are embedded with
`Option` / `Except`.
-/

set_option maxRecDepth 4000000
set_option maxHeartbeats 4000000

namespace Hikari

/-! ## secp256k1 constants (btcec.S256 parameters) -/

/-- The secp256k1 field prime `p = 2^256 - 2^32 - 977`. -/
def secpP : Nat :=
  115792089237316195423570985008687907853269984665640564039457584007908834671663

/-- The secp256k1 group order `n`. -/
def secpN : Nat :=
  115792089237316195423570985008687907852837564279074904382605163141518161494337

/-- X-coordinate of the secp256k1 base point `G`. -/
def secpGx : Nat :=
  55066263022277343669578718895168534326250603453777594175500187360389116729240

/-- Y-coordinate of the secp256k1 base point `G`. -/
def secpGy : Nat :=
  32670510020758816978083085130507043184471273380659243275938904335757337482424

/-! ## Modular exponentiation

`powMod a k m` computes `a ^ k % m` by binary exponentiation, structurally
recursing on a fuel bound so that the kernel can evaluate it on 256-bit
inputs. `powModAux f a k m` is correct whenever `k < 2 ^ f`. -/

/-- Binary modular exponentiation with explicit fuel. -/
def powModAux : Nat → Nat → Nat → Nat → Nat
  | 0, _, _, m => 1 % m
  | f + 1, a, k, m =>
    if k = 0 then 1 % m
    else
      let h := powModAux f (a * a % m) (k / 2) m
      if k % 2 = 1 then h * (a % m) % m else h

/-- `a ^ k mod m` for exponents below `2 ^ 256` (all uses in this development). -/
def powMod (a k m : Nat) : Nat := powModAux 256 a k m

theorem powModAux_correct (f : Nat) : ∀ a k m, k < 2 ^ f →
    powModAux f a k m = a ^ k % m := by
  induction f with
  | zero =>
    intro a k m hk
    interval_cases k
    simp [powModAux]
  | succ f ih =>
    intro a k m hk
    by_cases hk0 : k = 0
    · simp [powModAux, hk0]
    · have hhalf : k / 2 < 2 ^ f := by
        have : k < 2 ^ f * 2 := by
          simpa [Nat.pow_succ] using hk
        omega
      have hrec := ih (a * a % m) (k / 2) m hhalf
      have hsq : (a * a % m) ^ (k / 2) % m = (a * a) ^ (k / 2) % m :=
        (Nat.pow_mod (a * a) (k / 2) m).symm
      have hsplit : a ^ k = (a * a) ^ (k / 2) * a ^ (k % 2) := by
        conv_lhs => rw [← Nat.div_add_mod k 2]
        rw [Nat.pow_add, Nat.pow_mul]
        ring_nf
      rcases Nat.mod_two_eq_zero_or_one k with hpar | hpar
      · have : powModAux (f + 1) a k m = powModAux f (a * a % m) (k / 2) m := by
          simp [powModAux, hk0, hpar]
        rw [this, hrec, hsq, hsplit, hpar]
        simp
      · have : powModAux (f + 1) a k m =
            powModAux f (a * a % m) (k / 2) m * (a % m) % m := by
          simp [powModAux, hk0, hpar]
        rw [this, hrec, hsq, hsplit, hpar]
        conv_rhs => rw [Nat.mul_mod]
        simp [Nat.pow_one]

theorem powModAux_lt (f a k m : Nat) (hm : 0 < m) : powModAux f a k m < m := by
  induction f generalizing a k with
  | zero => simpa [powModAux] using Nat.mod_lt _ hm
  | succ f ih =>
    by_cases hk0 : k = 0
    · simpa [powModAux, hk0] using Nat.mod_lt _ hm
    · rcases Nat.mod_two_eq_zero_or_one k with hpar | hpar
      · simpa [powModAux, hk0, hpar] using ih (a * a % m) (k / 2)
      · simpa [powModAux, hk0, hpar] using Nat.mod_lt _ hm

theorem powMod_correct (a k m : Nat) (hk : k < 2 ^ 256) :
    powMod a k m = a ^ k % m :=
  powModAux_correct 256 a k m hk

theorem powMod_lt (a k m : Nat) (hm : 0 < m) : powMod a k m < m :=
  powModAux_lt 256 a k m hm

/-- A Lucas certificate checker: `l` lists the prime factorization of
`p - 1`; `a` is a primitive-root witness. -/
theorem prime_of_cert (p a : Nat) (l : List (Nat × Nat)) (hp : 2 ≤ p)
    (hk : p - 1 < 2 ^ 256)
    (hprod : l.foldr (fun qe acc => qe.1 ^ qe.2 * acc) 1 = p - 1)
    (hq : ∀ qe ∈ l, Nat.Prime qe.1)
    (ha : powMod a (p - 1) p = 1)
    (hw : ∀ qe ∈ l, powMod a ((p - 1) / qe.1) p ≠ 1) : Nat.Prime p := by
  haveI : NeZero p := ⟨by omega⟩
  haveI : Fact (1 < p) := ⟨by omega⟩
  have hpow : ∀ k : Nat, k < 2 ^ 256 → ((a : ZMod p)) ^ k = ((powMod a k p : Nat) : ZMod p) := by
    intro k hk'
    rw [powMod_correct a k p hk', ZMod.natCast_mod, Nat.cast_pow]
  have hmem : ∀ (L : List (Nat × Nat)), (∀ qe ∈ L, Nat.Prime qe.1) → ∀ q : Nat,
      q.Prime → q ∣ L.foldr (fun qe acc => qe.1 ^ qe.2 * acc) 1 → ∃ qe ∈ L, qe.1 = q := by
    intro L
    induction L with
    | nil =>
      intro _ q hqp hqd
      exact absurd (Nat.dvd_one.mp hqd) hqp.ne_one
    | cons qe rest ih =>
      intro hq' q hqp hqd
      simp only [List.foldr_cons] at hqd
      rcases (Nat.Prime.dvd_mul hqp).mp hqd with h | h
      · have heq : q = qe.1 :=
          (Nat.prime_dvd_prime_iff_eq hqp (hq' qe (List.mem_cons_self qe rest))).mp
            (hqp.dvd_of_dvd_pow h)
        exact ⟨qe, List.mem_cons_self qe rest, heq.symm⟩
      · obtain ⟨qe', hm, he⟩ := ih (fun x hx => hq' x (List.mem_cons_of_mem qe hx)) q hqp h
        exact ⟨qe', List.mem_cons_of_mem qe hm, he⟩
  refine lucas_primality p (a : ZMod p) ?_ ?_
  · rw [hpow (p - 1) hk, ha]
    simp
  · intro q hqp hqd
    rw [← hprod] at hqd
    obtain ⟨qe, hqe, rfl⟩ := hmem l hq q hqp hqd
    intro hcon
    apply hw qe hqe
    rw [hpow ((p - 1) / qe.1) (lt_of_le_of_lt (Nat.div_le_self _ _) hk)] at hcon
    have hlt : powMod a ((p - 1) / qe.1) p < p := by
      rw [powMod_correct a _ p (lt_of_le_of_lt (Nat.div_le_self _ _) hk)]
      exact Nat.mod_lt _ (by omega)
    have hv := congrArg ZMod.val hcon
    rw [ZMod.val_natCast, Nat.mod_eq_of_lt hlt, ZMod.val_one] at hv
    exact hv

theorem pcert13441 : Nat.Prime 13441 := by
  refine prime_of_cert 13441 11 [(2, 7), (3, 1), (5, 1), (7, 1)] (by norm_num) (by norm_num) (by decide) ?_ (by decide) (by decide)
  intro qe h
  simp only [List.mem_cons, List.not_mem_nil, or_false] at h
  rcases h with h | h | h | h
  · rw [h]
    exact (by norm_num)
  · rw [h]
    exact (by norm_num)
  · rw [h]
    exact (by norm_num)
  · rw [h]
    exact (by norm_num)

theorem pcert24809 : Nat.Prime 24809 := by
  refine prime_of_cert 24809 6 [(2, 3), (7, 1), (443, 1)] (by norm_num) (by norm_num) (by decide) ?_ (by decide) (by decide)
  intro qe h
  simp only [List.mem_cons, List.not_mem_nil, or_false] at h
  rcases h with h | h | h
  · rw [h]
    exact (by norm_num)
  · rw [h]
    exact (by norm_num)
  · rw [h]
    exact (by norm_num)

theorem pcert13331831 : Nat.Prime 13331831 := by
  refine prime_of_cert 13331831 13 [(2, 1), (5, 1), (971, 1), (1373, 1)] (by norm_num) (by norm_num) (by decide) ?_ (by decide) (by decide)
  intro qe h
  simp only [List.mem_cons, List.not_mem_nil, or_false] at h
  rcases h with h | h | h | h
  · rw [h]
    exact (by norm_num)
  · rw [h]
    exact (by norm_num)
  · rw [h]
    exact (by norm_num)
  · rw [h]
    exact (by norm_num)

theorem pcert173378833005251801 : Nat.Prime 173378833005251801 := by
  refine prime_of_cert 173378833005251801 6 [(2, 3), (5, 2), (2621, 1), (24809, 1), (13331831, 1)] (by norm_num) (by norm_num) (by decide) ?_ (by decide) (by decide)
  intro qe h
  simp only [List.mem_cons, List.not_mem_nil, or_false] at h
  rcases h with h | h | h | h | h
  · rw [h]
    exact (by norm_num)
  · rw [h]
    exact (by norm_num)
  · rw [h]
    exact (by norm_num)
  · rw [h]
    exact pcert24809
  · rw [h]
    exact pcert13331831

theorem pcert22149492674086928081353 : Nat.Prime 22149492674086928081353 := by
  refine prime_of_cert 22149492674086928081353 5 [(2, 3), (3, 1), (5323, 1), (173378833005251801, 1)] (by norm_num) (by norm_num) (by decide) ?_ (by decide) (by decide)
  intro qe h
  simp only [List.mem_cons, List.not_mem_nil, or_false] at h
  rcases h with h | h | h | h
  · rw [h]
    exact (by norm_num)
  · rw [h]
    exact (by norm_num)
  · rw [h]
    exact (by norm_num)
  · rw [h]
    exact pcert173378833005251801

theorem pcert132896956044521568488119 : Nat.Prime 132896956044521568488119 := by
  refine prime_of_cert 132896956044521568488119 6 [(2, 1), (3, 1), (22149492674086928081353, 1)] (by norm_num) (by norm_num) (by decide) ?_ (by decide) (by decide)
  intro qe h
  simp only [List.mem_cons, List.not_mem_nil, or_false] at h
  rcases h with h | h | h
  · rw [h]
    exact (by norm_num)
  · rw [h]
    exact (by norm_num)
  · rw [h]
    exact pcert22149492674086928081353

theorem pcert41201 : Nat.Prime 41201 := by
  refine prime_of_cert 41201 3 [(2, 4), (5, 2), (103, 1)] (by norm_num) (by norm_num) (by decide) ?_ (by decide) (by decide)
  intro qe h
  simp only [List.mem_cons, List.not_mem_nil, or_false] at h
  rcases h with h | h | h
  · rw [h]
    exact (by norm_num)
  · rw [h]
    exact (by norm_num)
  · rw [h]
    exact (by norm_num)

theorem pcert96557 : Nat.Prime 96557 := by
  refine prime_of_cert 96557 2 [(2, 2), (101, 1), (239, 1)] (by norm_num) (by norm_num) (by decide) ?_ (by decide) (by decide)
  intro qe h
  simp only [List.mem_cons, List.not_mem_nil, or_false] at h
  rcases h with h | h | h
  · rw [h]
    exact (by norm_num)
  · rw [h]
    exact (by norm_num)
  · rw [h]
    exact (by norm_num)

theorem pcert107590001 : Nat.Prime 107590001 := by
  refine prime_of_cert 107590001 3 [(2, 4), (5, 4), (7, 1), (29, 1), (53, 1)] (by norm_num) (by norm_num) (by decide) ?_ (by decide) (by decide)
  intro qe h
  simp only [List.mem_cons, List.not_mem_nil, or_false] at h
  rcases h with h | h | h | h | h
  · rw [h]
    exact (by norm_num)
  · rw [h]
    exact (by norm_num)
  · rw [h]
    exact (by norm_num)
  · rw [h]
    exact (by norm_num)
  · rw [h]
    exact (by norm_num)

theorem pcert20113 : Nat.Prime 20113 := by
  refine prime_of_cert 20113 10 [(2, 4), (3, 1), (419, 1)] (by norm_num) (by norm_num) (by decide) ?_ (by decide) (by decide)
  intro qe h
  simp only [List.mem_cons, List.not_mem_nil, or_false] at h
  rcases h with h | h | h
  · rw [h]
    exact (by norm_num)
  · rw [h]
    exact (by norm_num)
  · rw [h]
    exact (by norm_num)

theorem pcert1206781 : Nat.Prime 1206781 := by
  refine prime_of_cert 1206781 10 [(2, 2), (3, 1), (5, 1), (20113, 1)] (by norm_num) (by norm_num) (by decide) ?_ (by decide) (by decide)
  intro qe h
  simp only [List.mem_cons, List.not_mem_nil, or_false] at h
  rcases h with h | h | h | h
  · rw [h]
    exact (by norm_num)
  · rw [h]
    exact (by norm_num)
  · rw [h]
    exact (by norm_num)
  · rw [h]
    exact pcert20113

theorem pcert7240687 : Nat.Prime 7240687 := by
  refine prime_of_cert 7240687 3 [(2, 1), (3, 1), (1206781, 1)] (by norm_num) (by norm_num) (by decide) ?_ (by decide) (by decide)
  intro qe h
  simp only [List.mem_cons, List.not_mem_nil, or_false] at h
  rcases h with h | h | h
  · rw [h]
    exact (by norm_num)
  · rw [h]
    exact (by norm_num)
  · rw [h]
    exact pcert1206781

theorem pcert255515944373312847190720520512484175977 : Nat.Prime 255515944373312847190720520512484175977 := by
  refine prime_of_cert 255515944373312847190720520512484175977 3 [(2, 3), (7, 2), (11, 1), (1627, 1), (2657, 1), (4423, 1), (41201, 1), (96557, 1), (7240687, 1), (107590001, 1)] (by norm_num) (by norm_num) (by decide) ?_ (by decide) (by decide)
  intro qe h
  simp only [List.mem_cons, List.not_mem_nil, or_false] at h
  rcases h with h | h | h | h | h | h | h | h | h | h
  · rw [h]
    exact (by norm_num)
  · rw [h]
    exact (by norm_num)
  · rw [h]
    exact (by norm_num)
  · rw [h]
    exact (by norm_num)
  · rw [h]
    exact (by norm_num)
  · rw [h]
    exact (by norm_num)
  · rw [h]
    exact pcert41201
  · rw [h]
    exact pcert96557
  · rw [h]
    exact pcert7240687
  · rw [h]
    exact pcert107590001

theorem pcert205115282021455665897114700593932402728804164701536103180137503955397371 : Nat.Prime 205115282021455665897114700593932402728804164701536103180137503955397371 := by
  refine prime_of_cert 205115282021455665897114700593932402728804164701536103180137503955397371 10 [(2, 1), (3, 1), (5, 1), (29, 2), (31, 1), (7723, 1), (132896956044521568488119, 1), (255515944373312847190720520512484175977, 1)] (by norm_num) (by norm_num) (by decide) ?_ (by decide) (by decide)
  intro qe h
  simp only [List.mem_cons, List.not_mem_nil, or_false] at h
  rcases h with h | h | h | h | h | h | h | h
  · rw [h]
    exact (by norm_num)
  · rw [h]
    exact (by norm_num)
  · rw [h]
    exact (by norm_num)
  · rw [h]
    exact (by norm_num)
  · rw [h]
    exact (by norm_num)
  · rw [h]
    exact (by norm_num)
  · rw [h]
    exact pcert132896956044521568488119
  · rw [h]
    exact pcert255515944373312847190720520512484175977

theorem pcert115792089237316195423570985008687907853269984665640564039457584007908834671663 : Nat.Prime 115792089237316195423570985008687907853269984665640564039457584007908834671663 := by
  refine prime_of_cert 115792089237316195423570985008687907853269984665640564039457584007908834671663 3 [(2, 1), (3, 1), (7, 1), (13441, 1), (205115282021455665897114700593932402728804164701536103180137503955397371, 1)] (by norm_num) (by norm_num) (by decide) ?_ (by decide) (by decide)
  intro qe h
  simp only [List.mem_cons, List.not_mem_nil, or_false] at h
  rcases h with h | h | h | h | h
  · rw [h]
    exact (by norm_num)
  · rw [h]
    exact (by norm_num)
  · rw [h]
    exact (by norm_num)
  · rw [h]
    exact pcert13441
  · rw [h]
    exact pcert205115282021455665897114700593932402728804164701536103180137503955397371

/-- The secp256k1 field prime is prime (Lucas certificate chain, checked by
kernel modular exponentiation). -/
theorem secpP_prime : Nat.Prime 115792089237316195423570985008687907853269984665640564039457584007908834671663 :=
  pcert115792089237316195423570985008687907853269984665640564039457584007908834671663

/-! ## Field arithmetic modulo `secpP`

These mirror the `math/big` modular arithmetic used by `btcec` through the
`crypto/elliptic`-style interface: all residues are kept in `[0, p)`.
Inversion is Fermat inversion `a^(p-2) mod p` (equivalent, for the prime
modulus `p`, to the modular inverse computed by the Go library). -/

def pAdd (a b : Nat) : Nat := (a + b) % secpP

def pSub (a b : Nat) : Nat := (a + (secpP - b % secpP)) % secpP

def pMul (a b : Nat) : Nat := a * b % secpP

def pInv (a : Nat) : Nat := powMod a (secpP - 2) secpP

/-! ## Affine curve points in the Go interface

`crypto/elliptic` / `btcec.KoblitzCurve` expose curve operations on affine
coordinate pairs of big integers, with the pair `(0, 0)` standing for the
point at infinity in inputs and outputs of `Add`, `Double` and `ScalarMult`.
`GoPoint` is that coordinate pair. -/

structure GoPoint where
  x : Nat
  y : Nat
deriving DecidableEq, Repr

/-- The affine encoding of the point at infinity used by the Go curve
interface. -/
def infPt : GoPoint := ⟨0, 0⟩

/-- `curve.IsOnCurve`: checks `y² = x³ + 7 (mod p)` (btcec reduces the
supplied coordinates modulo `p` when converting them to field elements). -/
def goIsOnCurve (P : GoPoint) : Bool :=
  P.y * P.y % secpP = (P.x * P.x % secpP * P.x + 7) % secpP

/-- `curve.Add` on affine points: the secp256k1 chord-and-tangent law with
`(0, 0)` as the identity, matching the affine contract of
`crypto/elliptic`/btcec on curve points (a vertical chord or a tangent at a
2-torsion point yields the point at infinity). -/
def pointAdd (P Q : GoPoint) : GoPoint :=
  if P = infPt then Q
  else if Q = infPt then P
  else if P.x = Q.x then
    if P.y = Q.y ∧ P.y ≠ 0 then
      let L := pMul (pMul 3 (pMul P.x P.x)) (pInv (pMul 2 P.y))
      let x3 := pSub (pMul L L) (pAdd P.x Q.x)
      ⟨x3, pSub (pMul L (pSub P.x x3)) P.y⟩
    else infPt
  else
    let L := pMul (pSub P.y Q.y) (pInv (pSub P.x Q.x))
    let x3 := pSub (pMul L L) (pAdd P.x Q.x)
    ⟨x3, pSub (pMul L (pSub P.x x3)) P.y⟩

/-- Double-and-add scalar multiplication with explicit fuel; correct for
multipliers below `2 ^ fuel`. -/
def scalarMultAux : Nat → Nat → GoPoint → GoPoint
  | 0, _, _ => infPt
  | f + 1, k, P =>
    if k = 0 then infPt
    else
      let r := scalarMultAux f (k / 2) (pointAdd P P)
      if k % 2 = 1 then pointAdd r P else r

/-- `ScalarMult(k, P)` from the curve arithmetic library: `k·P` on the curve,
`(0,0)` for `k = 0` (all scalars appearing in the module are below `2^256`,
the width of the byte strings `curve.ScalarMult` consumes). -/
def ScalarMult (k : Nat) (P : GoPoint) : GoPoint := scalarMultAux 256 k P

/-- The secp256k1 base point `G`. -/
def secpG : GoPoint := ⟨secpGx, secpGy⟩

/-- `ScalarBaseMult(k) = k·G`. -/
def ScalarBaseMult (k : Nat) : GoPoint := ScalarMult k secpG

/-! ## Byte strings

Go byte slices are embedded as `List Nat` (each element `< 256`).
`natToBytesBE w v` is the `w`-byte big-endian encoding of `v`;
`bytesToNat` is `big.Int.SetBytes`; `minBytes` is `big.Int.Bytes`
(shortest big-endian form, empty for zero). -/

def natToBytesBE : Nat → Nat → List Nat
  | 0, _ => []
  | w + 1, v => natToBytesBE w (v / 256) ++ [v % 256]

def bytesToNat (bs : List Nat) : Nat := bs.foldl (fun acc b => acc * 256 + b) 0

def minBytesAux : Nat → Nat → List Nat
  | 0, _ => []
  | f + 1, v => if v = 0 then [] else minBytesAux f (v / 256) ++ [v % 256]

/-- `big.Int.Bytes()`: minimal big-endian encoding (values in this
development fit in 64 bytes). -/
def minBytes (v : Nat) : List Nat := minBytesAux 64 v

/-! ## SHA-256

`crypto/sha256.Sum256`, embedded over byte lists; 32-bit words are `Nat`
reduced `% 2^32`. -/

def w32 : Nat := 4294967296

def rotr32 (n x : Nat) : Nat := x / 2 ^ n + x % 2 ^ n * 2 ^ (32 - n)

def xor3 (a b c : Nat) : Nat := Nat.xor (Nat.xor a b) c

def bsig0 (x : Nat) : Nat := xor3 (rotr32 2 x) (rotr32 13 x) (rotr32 22 x)

def bsig1 (x : Nat) : Nat := xor3 (rotr32 6 x) (rotr32 11 x) (rotr32 25 x)

def ssig0 (x : Nat) : Nat := xor3 (rotr32 7 x) (rotr32 18 x) (x / 2 ^ 3)

def ssig1 (x : Nat) : Nat := xor3 (rotr32 17 x) (rotr32 19 x) (x / 2 ^ 10)

def chF (e f g : Nat) : Nat := Nat.xor (Nat.land e f) (Nat.land (Nat.xor e 4294967295) g)

def majF (a b c : Nat) : Nat := Nat.xor (Nat.xor (Nat.land a b) (Nat.land a c)) (Nat.land b c)

def sha256K : List Nat :=
  [1116352408, 1899447441, 3049323471, 3921009573, 961987163, 1508970993,
   2453635748, 2870763221, 3624381080, 310598401, 607225278, 1426881987,
   1925078388, 2162078206, 2614888103, 3248222580, 3835390401, 4022224774,
   264347078, 604807628, 770255983, 1249150122, 1555081692, 1996064986,
   2554220882, 2821834349, 2952996808, 3210313671, 3336571891, 3584528711,
   113926993, 338241895, 666307205, 773529912, 1294757372, 1396182291,
   1695183700, 1986661051, 2177026350, 2456956037, 2730485921, 2820302411,
   3259730800, 3345764771, 3516065817, 3600352804, 4094571909, 275423344,
   430227734, 506948616, 659060556, 883997877, 958139571, 1322822218,
   1537002063, 1747873779, 1955562222, 2024104815, 2227730452, 2361852424,
   2428436474, 2756734187, 3204031479, 3329325298]

def sha256Init : List Nat :=
  [1779033703, 3144134277, 1013904242, 2773480762,
   1359893119, 2600822924, 528734635, 1541459225]

/-- Group a byte list into big-endian 32-bit words. -/
def bytesToWords : List Nat → List Nat
  | b0 :: b1 :: b2 :: b3 :: rest =>
    (((b0 * 256 + b1) * 256 + b2) * 256 + b3) :: bytesToWords rest
  | _ => []

/-- Message-schedule extension, operating on the reversed word list
(most recent word first). -/
def shaExtendAux : Nat → List Nat → List Nat
  | 0, ws => ws
  | f + 1, ws =>
    shaExtendAux f
      ((ssig1 (ws.getD 1 0) + ws.getD 6 0 + ssig0 (ws.getD 14 0) + ws.getD 15 0) % w32 :: ws)

/-- One SHA-256 round on the 8-word state. -/
def shaRound (st : List Nat) (kw : Nat × Nat) : List Nat :=
  match st with
  | [a, b, c, d, e, f, g, h] =>
    let t1 := (h + bsig1 e + chF e f g + kw.1 + kw.2) % w32
    let t2 := (bsig0 a + majF a b c) % w32
    [(t1 + t2) % w32, a, b, c, (d + t1) % w32, e, f, g]
  | st => st

/-- Compress one 64-byte block into the running hash state. -/
def shaBlock (h : List Nat) (block : List Nat) : List Nat :=
  let ws := (shaExtendAux 48 (bytesToWords block).reverse).reverse
  let st := (sha256K.zip ws).foldl shaRound h
  List.zipWith (fun x y => (x + y) % w32) h st

/-- SHA-256 padding: `0x80`, zeros, 8-byte big-endian bit length. -/
def shaPad (m : List Nat) : List Nat :=
  m ++ 128 :: List.replicate ((119 - m.length % 64) % 64) 0 ++ natToBytesBE 8 (8 * m.length)

def chunks64Aux : Nat → List Nat → List (List Nat)
  | 0, _ => []
  | _ + 1, [] => []
  | f + 1, l => l.take 64 :: chunks64Aux f (l.drop 64)

/-- `sha256.Sum256` over a byte list, producing 32 bytes. -/
def sha256 (m : List Nat) : List Nat :=
  let padded := shaPad m
  ((chunks64Aux padded.length padded).foldl shaBlock sha256Init).foldr
    (fun w acc => natToBytesBE 4 w ++ acc) []

/-- `Hash256` from the curve arithmetic library: SHA-256. -/
def Hash256 (data : List Nat) : List Nat := sha256 data

example : sha256 [] =
    [0xe3, 0xb0, 0xc4, 0x42, 0x98, 0xfc, 0x1c, 0x14, 0x9a, 0xfb, 0xf4, 0xc8,
     0x99, 0x6f, 0xb9, 0x24, 0x27, 0xae, 0x41, 0xe4, 0x64, 0x9b, 0x93, 0x4c,
     0xa4, 0x95, 0x99, 0x1b, 0x78, 0x52, 0xb8, 0x55] := by decide

example : sha256 [0x61, 0x62, 0x63] =
    [0xba, 0x78, 0x16, 0xbf, 0x8f, 0x01, 0xcf, 0xea, 0x41, 0x41, 0x40, 0xde,
     0x5d, 0xae, 0x22, 0x23, 0xb0, 0x03, 0x61, 0xa3, 0x96, 0x17, 0x7a, 0x9c,
     0xb4, 0x10, 0xff, 0x61, 0xf2, 0x00, 0x15, 0xad] := by decide

/-! ## Point encodings (`crypto` package) -/

/-- `ECPoint.Bytes()`: 65-byte uncompressed form `0x04 || X || Y`. The Go
code copies `X.Bytes()` into `b[1:33]` and `Y.Bytes()` into `b[33:65]`
left-aligned (shorter-than-32-byte encodings leave trailing zeros). -/
def ECPointBytes (P : GoPoint) : List Nat :=
  4 :: ((minBytes P.x ++ List.replicate 32 0).take 32 ++
    (minBytes P.y ++ List.replicate 32 0).take 32)

/-- `ECPoint.Compressed()`: 33-byte form, parity prefix `0x02`/`0x03` and the
X coordinate right-aligned into 32 bytes. -/
def Compressed (P : GoPoint) : List Nat :=
  (if P.y % 2 = 0 then 2 else 3) ::
    (List.replicate (32 - (minBytes P.x).length) 0 ++ minBytes P.x)

/-- `big.Int.ModSqrt(x, p)` for the secp256k1 prime `p ≡ 3 (mod 4)`: the
library computes the candidate root `x^((p+1)/4) mod p`, guarding existence
with a Jacobi-symbol test; for the prime modulus that guard is equivalent to
checking that the candidate actually squares to `x`, which is how it is
embedded here. -/
def modSqrt (x : Nat) : Option Nat :=
  let z := powMod x ((secpP + 1) / 4) secpP
  if z * z % secpP = x % secpP then some z else none

/-- `DecompressPoint`: parses a 33-byte compressed point; computes
`y² = x³ + 7 (mod p)`, takes a modular square root and fixes its parity
according to the prefix byte (the Go code computes `p - y` without a further
reduction). Returns `none` (Go `nil`) on wrong length, non-residue `y²`, or
a bad prefix byte. -/
def DecompressPoint (compressed : List Nat) : Option GoPoint :=
  if compressed.length ≠ 33 then none
  else
    let x := bytesToNat (compressed.drop 1)
    let y2 := (x * x * x + 7) % secpP
    match modSqrt y2 with
    | none => none
    | some y0 =>
      if compressed.headD 0 = 2 then
        some ⟨x, if y0 % 2 = 1 then secpP - y0 else y0⟩
      else if compressed.headD 0 = 3 then
        some ⟨x, if y0 % 2 = 0 then secpP - y0 else y0⟩
      else none

/-- `HashToScalar`: SHA-256 then reduction modulo the curve order. -/
def HashToScalar (data : List Nat) : Nat := bytesToNat (Hash256 data) % secpN

/-- Try-and-increment loop of `HashToPoint` (256 attempts; the Go code
panics when all fail, embedded as `none`). -/
def hashToPointAux : Nat → Nat → Option GoPoint
  | 0, _ => none
  | f + 1, x =>
    let y2 := (x * x * x + 7) % secpP
    match modSqrt y2 with
    | some y => some ⟨x, y⟩
    | none => hashToPointAux f ((x + 1) % secpP)

/-- `HashToPoint`: hash to a candidate X-coordinate and try-and-increment. -/
def HashToPoint (data : List Nat) : Option GoPoint :=
  hashToPointAux 256 (bytesToNat (Hash256 data))

/-- The byte string `"Hikari Chain Privacy Module - H Generator Point"`
(the nothing-up-my-sleeve seed of `DeriveH`). -/
def hGenSeed : List Nat :=
  [72, 105, 107, 97, 114, 105, 32, 67, 104, 97, 105, 110, 32, 80, 114, 105,
   118, 97, 99, 121, 32, 77, 111, 100, 117, 108, 101, 32, 45, 32, 72, 32,
   71, 101, 110, 101, 114, 97, 116, 111, 114, 32, 80, 111, 105, 110, 116]

/-- `DeriveH`: the second Pedersen generator. -/
def DeriveH : Option GoPoint := HashToPoint hGenSeed

/-- The cached generator `H()` (the derivation succeeds; see `DeriveH_eq`). -/
def HPoint : GoPoint := (DeriveH).getD infPt

/-- The concrete value of the derived generator `H`. -/
theorem DeriveH_eq : DeriveH = some
    ⟨6588879460104181770610542886513950225650917675254471783955361732812209275194,
     34732141658275009891957861818810383557111837966334674513859619902299028996934⟩ := by
  decide

example : goIsOnCurve HPoint = true := by decide

example : ScalarBaseMult 2 =
    ⟨89565891926547004231252920425935692360644145829622209833684329913297188986597,
     12158399299693830322967808612713398636155367887041628176798871954788371653930⟩ := by
  decide



/-! ## The secp256k1 curve as a Mathlib Weierstrass curve

The Go curve interface is related to the nonsingular-point group of the
Weierstrass curve `y² = x³ + 7` over `ZMod secpP`; the group structure of the
latter transfers associativity/commutativity and scalar arithmetic to the
byte-level operations above. -/

instance secpP_prime_fact : Fact (Nat.Prime secpP) := ⟨secpP_prime⟩

instance secpP_one_lt_fact : Fact (1 < secpP) := ⟨by norm_num [secpP]⟩

/-- The secp256k1 base field. -/
abbrev Fp := ZMod secpP

/-- The secp256k1 Weierstrass curve `y² = x³ + 7` over `Fp`. -/
def secpW : WeierstrassCurve.Affine Fp :=
  { a₁ := 0, a₂ := 0, a₃ := 0, a₄ := 0, a₆ := 7 }

theorem secpP_gt (m : Nat) (hm : m < 2 ^ 128) : m < secpP := by
  have : (2 : Nat) ^ 128 < secpP := by norm_num [secpP]
  omega

theorem Fp_natCast_ne_zero (m : Nat) (h0 : m ≠ 0) (hm : m < 2 ^ 128) :
    (m : Fp) ≠ 0 := by
  intro hc
  have hd : secpP ∣ m := (ZMod.natCast_zmod_eq_zero_iff_dvd m secpP).mp hc
  have := Nat.le_of_dvd (Nat.pos_of_ne_zero h0) hd
  have := secpP_gt m hm
  omega

theorem Fp_seven_ne_zero : (7 : Fp) ≠ 0 := by
  have : ((7 : Nat) : Fp) ≠ 0 := Fp_natCast_ne_zero 7 (by norm_num) (by norm_num)
  simpa using this

theorem Fp_two_ne_zero : (2 : Fp) ≠ 0 := by
  have : ((2 : Nat) : Fp) ≠ 0 := Fp_natCast_ne_zero 2 (by norm_num) (by norm_num)
  simpa using this

theorem Fp_three_ne_zero : (3 : Fp) ≠ 0 := by
  have : ((3 : Nat) : Fp) ≠ 0 := Fp_natCast_ne_zero 3 (by norm_num) (by norm_num)
  simpa using this

/-- The affine-pair representation of a nonsingular curve point, as the Go
interface encodes it: `(0, 0)` for the point at infinity, coordinate values
in `[0, p)` otherwise. -/
def rep : secpW.Point → GoPoint
  | .zero => infPt
  | @WeierstrassCurve.Affine.Point.some _ _ _ x y _ => ⟨x.val, y.val⟩

theorem secpW_equation_iff (x y : Fp) :
    secpW.Equation x y ↔ y ^ 2 = x ^ 3 + 7 := by
  rw [WeierstrassCurve.Affine.equation_iff]
  show y ^ 2 + 0 * x * y + 0 * y = x ^ 3 + 0 * x ^ 2 + 0 * x + 7 ↔ _
  constructor <;> intro h <;> linear_combination h

theorem secpW_nonsingular_of_equation {x y : Fp} (h : secpW.Equation x y) :
    secpW.Nonsingular x y := by
  rw [WeierstrassCurve.Affine.nonsingular_iff]
  refine ⟨h, ?_⟩
  by_contra hc
  push_neg at hc
  obtain ⟨h1, h2⟩ := hc
  have hx : (3 : Fp) * x ^ 2 = 0 := by
    have := h1.symm
    simpa [secpW] using this
  have hy : (2 : Fp) * y = 0 := by
    have hyy : y = -y - 0 * x - 0 := h2
    have : y = -y := by simpa using hyy
    linear_combination this
  have hx0 : x = 0 := by
    rcases mul_eq_zero.mp hx with h | h
    · exact absurd h Fp_three_ne_zero
    · exact pow_eq_zero_iff (n := 2) (by norm_num) |>.mp h
  have hy0 : y = 0 := by
    rcases mul_eq_zero.mp hy with h | h
    · exact absurd h Fp_two_ne_zero
    · exact h
  rw [secpW_equation_iff, hx0, hy0] at h
  simp at h
  exact Fp_seven_ne_zero h.symm

/-! ### Transporting the modular arithmetic helpers to `Fp` -/

theorem pAdd_val (a b : Fp) : pAdd a.val b.val = (a + b).val := by
  rw [pAdd, ZMod.val_add]

theorem pMul_val (a b : Fp) : pMul a.val b.val = (a * b).val := by
  rw [pMul, ZMod.val_mul]

theorem add_mod_mod (x y n : Nat) : (x + y % n) % n = (x + y) % n := by
  conv_lhs => rw [Nat.add_mod, Nat.mod_mod_of_dvd y dvd_rfl, ← Nat.add_mod]

theorem pSub_val (a b : Fp) : pSub a.val b.val = (a - b).val := by
  have hb : b.val % secpP = b.val := Nat.mod_eq_of_lt (ZMod.val_lt b)
  rw [pSub, hb, sub_eq_add_neg, ZMod.val_add, ZMod.neg_val', add_mod_mod]

theorem pInv_val (a : Fp) (ha : a ≠ 0) : pInv a.val = a⁻¹.val := by
  have hfe : a ^ (secpP - 2) = a⁻¹ := by
    have h1 : a * a ^ (secpP - 2) = 1 := by
      have : a ^ (secpP - 1) = 1 := ZMod.pow_card_sub_one_eq_one ha
      have h2 : secpP - 2 + 1 = secpP - 1 := by norm_num [secpP]
      calc a * a ^ (secpP - 2) = a ^ (secpP - 2 + 1) := (pow_succ' a _).symm
        _ = a ^ (secpP - 1) := by rw [h2]
        _ = 1 := this
    exact (inv_eq_of_mul_eq_one_right h1).symm
  have hlt : pInv a.val < secpP := powMod_lt _ _ _ (by norm_num [secpP])
  have hcast : ((pInv a.val : Nat) : Fp) = a⁻¹ := by
    rw [pInv, powMod_correct _ _ _ (by norm_num [secpP]), ZMod.natCast_mod,
      Nat.cast_pow, ZMod.natCast_rightInverse a, hfe]
  have := congrArg ZMod.val hcast
  rwa [ZMod.val_cast_of_lt hlt] at this

theorem val_lit_mul (m : Nat) (a : Fp) (hm : m < 2 ^ 128) :
    pMul m a.val = ((m : Fp) * a).val := by
  rw [pMul, ZMod.val_mul, ZMod.val_cast_of_lt (secpP_gt m hm)]

/-! ### Relating `goIsOnCurve` to the Weierstrass equation -/

theorem curveNat_mod (x : Nat) :
    (x * x % secpP * x + 7) % secpP = (x * x * x + 7) % secpP := by
  conv_lhs => rw [Nat.add_mod, Nat.mod_mul_mod, ← Nat.add_mod]

theorem goIsOnCurve_iff_equation (x y : Nat) :
    goIsOnCurve ⟨x, y⟩ = true ↔ secpW.Equation (x : Fp) (y : Fp) := by
  have h1 : goIsOnCurve ⟨x, y⟩ = true ↔
      y * y % secpP = (x * x % secpP * x + 7) % secpP := by
    simp [goIsOnCurve]
  have hL : ((y * y : Nat) : Fp) = (y : Fp) ^ 2 := by push_cast; ring
  have hR : ((x * x * x + 7 : Nat) : Fp) = (x : Fp) ^ 3 + 7 := by push_cast; ring
  rw [secpW_equation_iff, h1, curveNat_mod, ← ZMod.natCast_eq_natCast_iff', hL, hR]

/-! ### Basic properties of `rep` -/

theorem rep_some_ne_inf {x y : Fp} (h : secpW.Nonsingular x y) :
    rep (.some h) ≠ infPt := by
  intro hc
  rw [rep, infPt] at hc
  have hx : x = 0 := by
    have := congrArg GoPoint.x hc
    simpa [ZMod.val_eq_zero] using this
  have hy : y = 0 := by
    have := congrArg GoPoint.y hc
    simpa [ZMod.val_eq_zero] using this
  have heq := h.1
  rw [secpW_equation_iff, hx, hy] at heq
  simp at heq
  exact Fp_seven_ne_zero heq.symm

theorem point_some_eq {x₁ y₁ x₂ y₂ : Fp} (h₁ : secpW.Nonsingular x₁ y₁)
    (h₂ : secpW.Nonsingular x₂ y₂) (hx : x₁ = x₂) (hy : y₁ = y₂) :
    (WeierstrassCurve.Affine.Point.some h₁ : secpW.Point) = .some h₂ := by
  subst hx
  subst hy
  rfl

theorem rep_inj {A B : secpW.Point} (h : rep A = rep B) : A = B := by
  cases A with
  | zero =>
    cases B with
    | zero => rfl
    | some hB => exact absurd h.symm (rep_some_ne_inf hB)
  | some hA =>
    cases B with
    | zero => exact absurd h (rep_some_ne_inf hA)
    | some hB =>
      rw [rep, rep] at h
      exact point_some_eq hA hB
        (ZMod.val_injective secpP (congrArg GoPoint.x h))
        (ZMod.val_injective secpP (congrArg GoPoint.y h))

theorem secpW_a1 : secpW.a₁ = 0 := rfl

theorem secpW_a2 : secpW.a₂ = 0 := rfl

theorem secpW_a3 : secpW.a₃ = 0 := rfl

theorem secpW_a4 : secpW.a₄ = 0 := rfl

theorem secpW_negY (x y : Fp) : secpW.negY x y = -y := by
  rw [WeierstrassCurve.Affine.negY, secpW_a1, secpW_a3]
  ring

/-- The affine chord/tangent output pair of `pointAdd` matches Mathlib's
`addX`/`addY` at the same slope. -/
theorem pair_formula (x₁ y₁ x₂ : Fp) (L : Fp) :
    (GoPoint.mk (pSub (pMul L.val L.val) (pAdd x₁.val x₂.val))
      (pSub (pMul L.val (pSub x₁.val (pSub (pMul L.val L.val) (pAdd x₁.val x₂.val)))) y₁.val))
    = ⟨(secpW.addX x₁ x₂ L).val, (secpW.addY x₁ x₂ y₁ L).val⟩ := by
  have hx3 : pSub (pMul L.val L.val) (pAdd x₁.val x₂.val) = (secpW.addX x₁ x₂ L).val := by
    rw [pMul_val, pAdd_val, pSub_val]
    congr 1
    rw [WeierstrassCurve.Affine.addX, secpW_a1, secpW_a2]
    ring
  rw [hx3]
  have hy3 : pSub (pMul L.val (pSub x₁.val (secpW.addX x₁ x₂ L).val)) y₁.val
      = (secpW.addY x₁ x₂ y₁ L).val := by
    rw [pSub_val, pMul_val, pSub_val]
    congr 1
    rw [WeierstrassCurve.Affine.addY, WeierstrassCurve.Affine.negAddY, secpW_negY]
    ring
  rw [hy3]

theorem L_chord_val (x₁ y₁ x₂ y₂ : Fp) (hx : x₁ ≠ x₂) :
    pMul (pSub y₁.val y₂.val) (pInv (pSub x₁.val x₂.val))
      = (secpW.slope x₁ x₂ y₁ y₂).val := by
  rw [pSub_val, pSub_val, pInv_val _ (sub_ne_zero_of_ne hx), pMul_val,
    WeierstrassCurve.Affine.slope_of_X_ne hx, div_eq_mul_inv]

theorem L_tangent_val (x₁ y₁ : Fp) (hy : y₁ ≠ 0) (hyneg : y₁ ≠ secpW.negY x₁ y₁) :
    pMul (pMul 3 (pMul x₁.val x₁.val)) (pInv (pMul 2 y₁.val))
      = (secpW.slope x₁ x₁ y₁ y₁).val := by
  have h2 : pMul 2 y₁.val = ((2 : Fp) * y₁).val := by
    have := val_lit_mul 2 y₁ (by norm_num)
    simpa using this
  have h2ne : (2 : Fp) * y₁ ≠ 0 := mul_ne_zero Fp_two_ne_zero hy
  have h3 : pMul 3 (pMul x₁.val x₁.val) = ((3 : Fp) * (x₁ * x₁)).val := by
    rw [pMul_val]
    have := val_lit_mul 3 (x₁ * x₁) (by norm_num)
    simpa using this
  rw [h3, h2, pInv_val _ h2ne, pMul_val,
    WeierstrassCurve.Affine.slope_of_Y_ne rfl hyneg]
  congr 1
  rw [secpW_negY, secpW_a1, secpW_a2, secpW_a4, div_eq_mul_inv]
  congr 1
  · ring
  · congr 1
    ring

/-- `curve.Add` agrees with the Weierstrass group addition through `rep`. -/
theorem rep_add (A B : secpW.Point) : pointAdd (rep A) (rep B) = rep (A + B) := by
  cases A with
  | zero =>
    have h0 : rep WeierstrassCurve.Affine.Point.zero = infPt := rfl
    rw [h0, pointAdd, if_pos rfl, WeierstrassCurve.Affine.Point.zero_def, zero_add]
  | @some x₁ y₁ h₁ =>
    cases B with
    | zero =>
      have h0 : rep WeierstrassCurve.Affine.Point.zero = infPt := rfl
      have hne₁ : rep (WeierstrassCurve.Affine.Point.some h₁) ≠ infPt := rep_some_ne_inf h₁
      rw [h0, pointAdd, if_neg hne₁, if_pos rfl, WeierstrassCurve.Affine.Point.zero_def,
        add_zero]
    | @some x₂ y₂ h₂ =>
      have hne₁ : (GoPoint.mk x₁.val y₁.val) ≠ infPt := rep_some_ne_inf h₁
      have hne₂ : (GoPoint.mk x₂.val y₂.val) ≠ infPt := rep_some_ne_inf h₂
      show pointAdd ⟨x₁.val, y₁.val⟩ ⟨x₂.val, y₂.val⟩ = _
      rw [pointAdd, if_neg hne₁, if_neg hne₂]
      by_cases hx : x₁ = x₂
      · have hvx : (GoPoint.mk x₁.val y₁.val).x = (GoPoint.mk x₂.val y₂.val).x :=
          congrArg ZMod.val hx
        rw [if_pos hvx]
        by_cases hy : y₁ = secpW.negY x₂ y₂
        · have hcond : ¬((GoPoint.mk x₁.val y₁.val).y = (GoPoint.mk x₂.val y₂.val).y ∧
              (GoPoint.mk x₁.val y₁.val).y ≠ 0) := by
            rintro ⟨hvy, hvy0⟩
            have hyy : y₁ = y₂ := ZMod.val_injective secpP hvy
            have hy10 : y₁ ≠ 0 := by
              intro hc
              exact hvy0 (by simp [hc])
            rw [secpW_negY, ← hyy] at hy
            have : (2 : Fp) * y₁ = 0 := by linear_combination hy
            rcases mul_eq_zero.mp this with h | h
            · exact Fp_two_ne_zero h
            · exact hy10 h
          rw [if_neg hcond, WeierstrassCurve.Affine.Point.add_of_Y_eq hx hy]
          rfl
        · have hyy : y₁ = y₂ :=
            WeierstrassCurve.Affine.Y_eq_of_Y_ne h₁.1 h₂.1 hx hy
          subst hx
          subst hyy
          have hy10 : y₁ ≠ 0 := by
            intro hc
            apply hy
            rw [secpW_negY, hc]
            ring
          have hcond : ((GoPoint.mk x₁.val y₁.val).y = (GoPoint.mk x₁.val y₁.val).y ∧
              (GoPoint.mk x₁.val y₁.val).y ≠ 0) := by
            refine ⟨rfl, ?_⟩
            show y₁.val ≠ 0
            intro hc
            exact hy10 ((ZMod.val_eq_zero y₁).mp hc)
          rw [if_pos hcond]
          rw [WeierstrassCurve.Affine.Point.add_of_Y_ne hy]
          have hL := L_tangent_val x₁ y₁ hy10 hy
          rw [show (GoPoint.mk x₁.val y₁.val).x = x₁.val from rfl,
            show (GoPoint.mk x₁.val y₁.val).y = y₁.val from rfl]
          rw [hL]
          exact pair_formula x₁ y₁ x₁ (secpW.slope x₁ x₁ y₁ y₁)
      · have hvx : ¬((GoPoint.mk x₁.val y₁.val).x = (GoPoint.mk x₂.val y₂.val).x) := by
          intro hc
          exact hx (ZMod.val_injective secpP hc)
        rw [if_neg hvx]
        rw [WeierstrassCurve.Affine.Point.add_of_X_ne hx]
        have hL := L_chord_val x₁ y₁ x₂ y₂ hx
        rw [show (GoPoint.mk x₁.val y₁.val).x = x₁.val from rfl,
          show (GoPoint.mk x₁.val y₁.val).y = y₁.val from rfl,
          show (GoPoint.mk x₂.val y₂.val).x = x₂.val from rfl,
          show (GoPoint.mk x₂.val y₂.val).y = y₂.val from rfl]
        rw [hL]
        exact pair_formula x₁ y₁ x₂ (secpW.slope x₁ x₂ y₁ y₂)

theorem rep_smulAux : ∀ (f k : Nat) (A : secpW.Point), k < 2 ^ f →
    scalarMultAux f k (rep A) = rep (k • A) := by
  intro f
  induction f with
  | zero =>
    intro k A hk
    interval_cases k
    show infPt = rep ((0 : Nat) • A)
    rw [zero_nsmul]
    rfl
  | succ f ih =>
    intro k A hk
    by_cases hk0 : k = 0
    · subst hk0
      show infPt = rep ((0 : Nat) • A)
      rw [zero_nsmul]
      rfl
    · have hdouble : pointAdd (rep A) (rep A) = rep (A + A) := rep_add A A
      have hhalf : k / 2 < 2 ^ f := by
        have : k < 2 ^ f * 2 := by
          simpa [Nat.pow_succ] using hk
        omega
      have hrec : scalarMultAux f (k / 2) (rep (A + A)) = rep ((k / 2) • (A + A)) :=
        ih (k / 2) (A + A) hhalf
      have hsplit : (k / 2) • (A + A) + (k % 2) • A = k • A := by
        have h2 : A + A = (2 : Nat) • A := (two_nsmul A).symm
        rw [h2, ← mul_nsmul A, ← add_nsmul]
        congr 1
        omega
      rcases Nat.mod_two_eq_zero_or_one k with hpar | hpar
      · have heq : scalarMultAux (f + 1) k (rep A) =
            scalarMultAux f (k / 2) (pointAdd (rep A) (rep A)) := by
          simp [scalarMultAux, hk0, hpar]
        rw [heq, hdouble, hrec]
        congr 1
        rw [← hsplit, hpar, zero_nsmul, add_zero]
      · have heq : scalarMultAux (f + 1) k (rep A) =
            pointAdd (scalarMultAux f (k / 2) (pointAdd (rep A) (rep A))) (rep A) := by
          simp [scalarMultAux, hk0, hpar]
        rw [heq, hdouble, hrec, rep_add]
        congr 1
        rw [← hsplit, hpar, one_nsmul]

theorem ScalarMult_rep (k : Nat) (A : secpW.Point) (hk : k < 2 ^ 256) :
    ScalarMult k (rep A) = rep (k • A) :=
  rep_smulAux 256 k A hk

/-! ### Valid points: images of the nonsingular-point group -/

/-- A `GoPoint` is valid when it is the affine encoding of a point of the
curve group: the infinity encoding `(0, 0)`, or an on-curve pair with reduced
coordinates. -/
def ValidPt (P : GoPoint) : Prop := ∃ A : secpW.Point, rep A = P

theorem validPt_inf : ValidPt infPt := ⟨0, rfl⟩

theorem validPt_of_checks (P : GoPoint)
    (h : P.x < secpP ∧ P.y < secpP ∧ goIsOnCurve P = true) : ValidPt P := by
  obtain ⟨px, py⟩ := P
  obtain ⟨hx, hy, hc⟩ := h
  have heq : secpW.Equation (px : Fp) (py : Fp) := by
    rw [← goIsOnCurve_iff_equation]
    exact hc
  refine ⟨.some (secpW_nonsingular_of_equation heq), ?_⟩
  show GoPoint.mk ((px : Fp)).val ((py : Fp)).val = GoPoint.mk px py
  rw [ZMod.val_cast_of_lt hx, ZMod.val_cast_of_lt hy]

theorem validPt_pointAdd {P Q : GoPoint} (hP : ValidPt P) (hQ : ValidPt Q) :
    ValidPt (pointAdd P Q) := by
  obtain ⟨A, rfl⟩ := hP
  obtain ⟨B, rfl⟩ := hQ
  exact ⟨A + B, (rep_add A B).symm⟩

theorem validPt_ScalarMult {P : GoPoint} (k : Nat) (hP : ValidPt P) (hk : k < 2 ^ 256) :
    ValidPt (ScalarMult k P) := by
  obtain ⟨A, rfl⟩ := hP
  exact ⟨k • A, (ScalarMult_rep k A hk).symm⟩

/-- The base point, as a point of the curve group. -/
def ptG : secpW.Point :=
  .some (secpW_nonsingular_of_equation
    ((goIsOnCurve_iff_equation secpGx secpGy).mp (by decide)))

theorem rep_ptG : rep ptG = secpG := by
  show GoPoint.mk ((secpGx : Fp)).val ((secpGy : Fp)).val = secpG
  rw [ZMod.val_cast_of_lt (by norm_num [secpGx, secpP]),
    ZMod.val_cast_of_lt (by norm_num [secpGy, secpP])]
  rfl

theorem validPt_G : ValidPt secpG := ⟨ptG, rep_ptG⟩

theorem ScalarBaseMult_rep (k : Nat) (hk : k < 2 ^ 256) :
    ScalarBaseMult k = rep (k • ptG) := by
  rw [ScalarBaseMult, ← rep_ptG, ScalarMult_rep k ptG hk]

/-! ### Splitting scalars into limbs (to keep kernel evaluations shallow) -/

theorem ScalarMult_limb (k e : Nat) (P : GoPoint) (hP : ValidPt P)
    (hk : k < 2 ^ 256) (he : 2 ^ e < 2 ^ 256) :
    ScalarMult k P =
      pointAdd (ScalarMult (k % 2 ^ e) P)
        (ScalarMult (k / 2 ^ e) (ScalarMult (2 ^ e) P)) := by
  obtain ⟨A, rfl⟩ := hP
  have h1 : k % 2 ^ e < 2 ^ 256 := lt_of_le_of_lt (Nat.mod_le k _) hk
  have h2 : k / 2 ^ e < 2 ^ 256 := lt_of_le_of_lt (Nat.div_le_self _ _) hk
  rw [ScalarMult_rep _ _ hk, ScalarMult_rep _ _ h1, ScalarMult_rep _ _ he,
    ScalarMult_rep _ _ h2, rep_add]
  congr 1
  rw [← mul_nsmul A, ← add_nsmul]
  congr 1
  exact (Nat.mod_add_div k (2 ^ e)).symm

/-- Scalars act modulo the order of the point: `(k mod n)·A = k·A` whenever
`n·A = O`. -/
theorem nsmul_mod_order (k : Nat) (A : secpW.Point) (hA : secpN • A = 0) :
    (k % secpN) • A = k • A := by
  conv_rhs => rw [← Nat.mod_add_div k secpN]
  rw [add_nsmul, mul_nsmul, hA, nsmul_zero, add_zero]

/-! ## A Jacobian-coordinates evaluator for scalar multiplication

`ScalarMult` as defined above mirrors the affine interface but needs one
field inversion per group operation, which makes kernel evaluation of
256-bit multiplications expensive. `scalarMultFast` is an
inversion-free Jacobian double-and-add evaluator, proved to agree with
`ScalarMult` on valid points (`scalarMultFast_eq`); concrete witnesses
evaluate through it. -/

structure JacPt where
  jx : Nat
  jy : Nat
  jz : Nat
deriving DecidableEq, Repr

/-- Jacobian doubling (`a = 0` curve), all coordinates reduced mod `p`. -/
def jacDouble (P : JacPt) : JacPt :=
  let a := pMul P.jx P.jx
  let b := pMul P.jy P.jy
  let c := pMul b b
  let d := pMul 2 (pSub (pSub (pMul (pAdd P.jx b) (pAdd P.jx b)) a) c)
  let e := pMul 3 a
  let f := pMul e e
  let x3 := pSub f (pMul 2 d)
  ⟨x3, pSub (pMul e (pSub d x3)) (pMul 8 c), pMul 2 (pMul P.jy P.jz)⟩

/-- The generic-position (distinct X) case of mixed Jacobian addition. -/
def jacChord (P : JacPt) (x2 y2 : Nat) : JacPt :=
  let z2 := pMul P.jz P.jz
  let u2 := pMul x2 z2
  let s2 := pMul y2 (pMul P.jz z2)
  let h := pSub u2 P.jx
  let r := pSub s2 P.jy
  let h2 := pMul h h
  let h3 := pMul h h2
  let x3 := pSub (pSub (pMul r r) h3) (pMul 2 (pMul P.jx h2))
  ⟨x3, pSub (pMul r (pSub (pMul P.jx h2) x3)) (pMul P.jy h3), pMul P.jz h⟩

/-- Mixed Jacobian + affine addition; the affine point has reduced
coordinates. -/
def jacAddMixed (P : JacPt) (x2 y2 : Nat) : JacPt :=
  if P.jz = 0 then ⟨x2, y2, 1⟩
  else
    let z2 := pMul P.jz P.jz
    let u2 := pMul x2 z2
    let s2 := pMul y2 (pMul P.jz z2)
    if u2 = P.jx then
      (if s2 = P.jy then jacDouble P else ⟨1, 1, 0⟩)
    else jacChord P x2 y2

/-- MSB-first double-and-add over the low `f` bits of `k`. The impossible
guard branch forces the accumulator to a literal at every step, keeping
kernel evaluation shallow. -/
def jacScalarAux : Nat → Nat → GoPoint → JacPt → JacPt
  | 0, _, _, acc => acc
  | f + 1, k, P, acc =>
    let acc' := if k / 2 ^ f % 2 = 1 then jacAddMixed (jacDouble acc) P.x P.y
      else jacDouble acc
    if acc'.jx + acc'.jy + acc'.jz + 1 = 0 then ⟨0, 0, 0⟩
    else jacScalarAux f k P acc'

/-- Convert back to the affine interface encoding. -/
def jacToGo (P : JacPt) : GoPoint :=
  if P.jz = 0 then infPt
  else
    let zi := pInv P.jz
    let zi2 := pMul zi zi
    ⟨pMul P.jx zi2, pMul P.jy (pMul zi zi2)⟩

/-- Fast scalar multiplication for multipliers below `2 ^ 256`. -/
def scalarMultFast (k : Nat) (P : GoPoint) : GoPoint :=
  jacToGo (jacScalarAux 256 k P ⟨1, 1, 0⟩)

/-! ### Correctness of the Jacobian evaluator -/

theorem cast_pAdd (a b : Nat) : ((pAdd a b : Nat) : Fp) = (a : Fp) + (b : Fp) := by
  rw [pAdd, ZMod.natCast_mod]
  push_cast
  ring

theorem cast_pMul (a b : Nat) : ((pMul a b : Nat) : Fp) = (a : Fp) * (b : Fp) := by
  rw [pMul, ZMod.natCast_mod]
  push_cast
  ring

theorem cast_pSub (a b : Nat) : ((pSub a b : Nat) : Fp) = (a : Fp) - (b : Fp) := by
  rw [pSub, ZMod.natCast_mod, Nat.cast_add,
    Nat.cast_sub (le_of_lt (Nat.mod_lt b (by norm_num [secpP])))]
  rw [ZMod.natCast_mod]
  rw [ZMod.natCast_self]
  ring

theorem pAdd_lt (a b : Nat) : pAdd a b < secpP := Nat.mod_lt _ (by norm_num [secpP])

theorem pMul_lt (a b : Nat) : pMul a b < secpP := Nat.mod_lt _ (by norm_num [secpP])

theorem pSub_lt (a b : Nat) : pSub a b < secpP := Nat.mod_lt _ (by norm_num [secpP])

/-- The Jacobian triple `J` represents the group point `A`: zero `Z` means
the point at infinity, otherwise `(X/Z², Y/Z³)` are the affine
coordinates. All components are reduced mod `p`. -/
def JacRepr (J : JacPt) (A : secpW.Point) : Prop :=
  J.jx < secpP ∧ J.jy < secpP ∧ J.jz < secpP ∧
  (match A with
   | .zero => (J.jz : Fp) = 0
   | @WeierstrassCurve.Affine.Point.some _ _ _ x y _ =>
     (J.jz : Fp) ≠ 0 ∧ (J.jx : Fp) = x * (J.jz : Fp) ^ 2 ∧
       (J.jy : Fp) = y * (J.jz : Fp) ^ 3)

theorem secpW_addX (x₁ x₂ L : Fp) : secpW.addX x₁ x₂ L = L ^ 2 - x₁ - x₂ := by
  rw [WeierstrassCurve.Affine.addX, secpW_a1, secpW_a2]
  ring

theorem secpW_addY (x₁ x₂ y₁ L : Fp) :
    secpW.addY x₁ x₂ y₁ L = L * (x₁ - secpW.addX x₁ x₂ L) - y₁ := by
  rw [WeierstrassCurve.Affine.addY, WeierstrassCurve.Affine.negAddY, secpW_negY]
  ring

theorem secpW_slope_tangent (x y : Fp) (hy : y ≠ secpW.negY x y) :
    secpW.slope x x y y = 3 * x ^ 2 / (2 * y) := by
  rw [WeierstrassCurve.Affine.slope_of_Y_ne rfl hy, secpW_negY, secpW_a1, secpW_a2, secpW_a4]
  congr 1
  · ring
  · ring

theorem tangent_y_ne_zero {x y : Fp} (hy : y ≠ secpW.negY x y) : y ≠ 0 := by
  intro hc
  apply hy
  rw [secpW_negY, hc, neg_zero]

theorem jacDouble_repr {J : JacPt} {A : secpW.Point} (h : JacRepr J A) :
    JacRepr (jacDouble J) (A + A) := by
  obtain ⟨hbx, hby, hbz, hm⟩ := h
  cases A with
  | zero =>
    rw [WeierstrassCurve.Affine.Point.zero_def, zero_add]
    refine ⟨pSub_lt _ _, pSub_lt _ _, pMul_lt _ _, ?_⟩
    show (((jacDouble J).jz : Nat) : Fp) = 0
    have hz0 : ((J.jz : Nat) : Fp) = 0 := hm
    simp only [jacDouble, cast_pMul, hz0]
    ring
  | @some x y hxy =>
    obtain ⟨hz, hX, hY⟩ := hm
    by_cases hy : y = secpW.negY x y
    · rw [WeierstrassCurve.Affine.Point.add_self_of_Y_eq hy]
      refine ⟨pSub_lt _ _, pSub_lt _ _, pMul_lt _ _, ?_⟩
      show (((jacDouble J).jz : Nat) : Fp) = 0
      have hy0 : y = 0 := by
        rw [secpW_negY] at hy
        have h2y : (2 : Fp) * y = 0 := by linear_combination hy
        rcases mul_eq_zero.mp h2y with h | h
        · exact absurd h Fp_two_ne_zero
        · exact h
      simp only [jacDouble, cast_pMul, hY, hy0]
      ring
    · rw [WeierstrassCurve.Affine.Point.add_self_of_Y_ne hy]
      have hy0 : y ≠ 0 := tangent_y_ne_zero hy
      have hL := secpW_slope_tangent x y hy
      refine ⟨pSub_lt _ _, pSub_lt _ _, pMul_lt _ _, ?_⟩
      have hz3 : (((jacDouble J).jz : Nat) : Fp) = 2 * y * ((J.jz : Nat) : Fp) ^ 4 := by
        simp only [jacDouble, cast_pMul, hY]
        ring
      refine ⟨?_, ?_, ?_⟩
      · rw [hz3]
        intro hc
        rcases mul_eq_zero.mp hc with h | h
        · rcases mul_eq_zero.mp h with h' | h'
          · exact Fp_two_ne_zero h'
          · exact hy0 h'
        · exact hz (pow_eq_zero_iff (by norm_num) |>.mp h)
      · show (((jacDouble J).jx : Nat) : Fp) = _
        rw [hz3, secpW_addX, hL]
        simp only [jacDouble, cast_pMul, cast_pSub, cast_pAdd, hX, hY]
        field_simp [hy0, Fp_two_ne_zero]
        ring
      · show (((jacDouble J).jy : Nat) : Fp) = _
        rw [hz3, secpW_addY, secpW_addX, hL]
        simp only [jacDouble, cast_pMul, cast_pSub, cast_pAdd, hX, hY]
        field_simp [hy0, Fp_two_ne_zero]
        ring

theorem cast_val_eq (a : Fp) : ((a.val : Nat) : Fp) = a := ZMod.natCast_rightInverse a

theorem natCast_inj_lt {a b : Nat} (ha : a < secpP) (hb : b < secpP) :
    (a : Fp) = (b : Fp) ↔ a = b := by
  constructor
  · intro h
    have := congrArg ZMod.val h
    rwa [ZMod.val_cast_of_lt ha, ZMod.val_cast_of_lt hb] at this
  · intro h
    rw [h]

theorem cast_eq_zero_lt {a : Nat} (ha : a < secpP) : (a : Fp) = 0 ↔ a = 0 := by
  have := natCast_inj_lt ha (show 0 < secpP by norm_num [secpP])
  simpa using this

theorem jacAddMixed_repr {J : JacPt} {A : secpW.Point} {x y : Fp}
    (hns : secpW.Nonsingular x y) (h : JacRepr J A) :
    JacRepr (jacAddMixed J x.val y.val) (A + .some hns) := by
  obtain ⟨hbx, hby, hbz, hm⟩ := h
  cases A with
  | zero =>
    have hz0 : J.jz = 0 := (cast_eq_zero_lt hbz).mp hm
    rw [WeierstrassCurve.Affine.Point.zero_def, zero_add, jacAddMixed, if_pos hz0]
    refine ⟨ZMod.val_lt x, ZMod.val_lt y, by norm_num [secpP], ?_, ?_, ?_⟩
    · show ((1 : Nat) : Fp) ≠ 0
      simp
    · show ((x.val : Nat) : Fp) = x * ((1 : Nat) : Fp) ^ 2
      rw [cast_val_eq]
      simp
    · show ((y.val : Nat) : Fp) = y * ((1 : Nat) : Fp) ^ 3
      rw [cast_val_eq]
      simp
  | @some x1 y1 h1 =>
    obtain ⟨hz, hX, hY⟩ := hm
    have hz0 : J.jz ≠ 0 := by
      intro hc
      apply hz
      rw [hc]
      simp
    rw [jacAddMixed, if_neg hz0]
    have hu2cast : ((pMul x.val (pMul J.jz J.jz) : Nat) : Fp) = x * (J.jz : Fp) ^ 2 := by
      rw [cast_pMul, cast_pMul, cast_val_eq]
      ring
    have hs2cast : ((pMul y.val (pMul J.jz (pMul J.jz J.jz)) : Nat) : Fp)
        = y * (J.jz : Fp) ^ 3 := by
      rw [cast_pMul, cast_pMul, cast_pMul, cast_val_eq]
      ring
    by_cases hxx : x = x1
    · have hu2 : pMul x.val (pMul J.jz J.jz) = J.jx := by
        rw [← natCast_inj_lt (pMul_lt _ _) hbx, hu2cast, hX, hxx]
      rw [if_pos hu2]
      by_cases hyy : y = y1
      · have hs2 : pMul y.val (pMul J.jz (pMul J.jz J.jz)) = J.jy := by
          rw [← natCast_inj_lt (pMul_lt _ _) hby, hs2cast, hY, hyy]
        rw [if_pos hs2]
        have heq : (WeierstrassCurve.Affine.Point.some hns : secpW.Point) = .some h1 :=
          point_some_eq hns h1 hxx hyy
        rw [heq]
        exact jacDouble_repr ⟨hbx, hby, hbz, hz, hX, hY⟩
      · have hs2 : pMul y.val (pMul J.jz (pMul J.jz J.jz)) ≠ J.jy := by
          rw [Ne, ← natCast_inj_lt (pMul_lt _ _) hby, hs2cast, hY]
          intro hc
          exact hyy (mul_right_cancel₀ (pow_ne_zero 3 hz) hc)
        rw [if_neg hs2]
        have hyneg : y1 = secpW.negY x y :=
          (WeierstrassCurve.Affine.Y_eq_of_X_eq h1.1 hns.1 hxx.symm).resolve_left
            (fun hc => hyy (hc.symm ▸ rfl))
        rw [WeierstrassCurve.Affine.Point.add_of_Y_eq hxx.symm hyneg]
        refine ⟨by norm_num [secpP], by norm_num [secpP], by norm_num [secpP], ?_⟩
        show ((0 : Nat) : Fp) = 0
        simp
    · have hu2 : pMul x.val (pMul J.jz J.jz) ≠ J.jx := by
        rw [Ne, ← natCast_inj_lt (pMul_lt _ _) hbx, hu2cast, hX]
        intro hc
        exact hxx (mul_right_cancel₀ (pow_ne_zero 2 hz) hc)
      rw [if_neg hu2]
      have hx1x : x1 ≠ x := fun hc => hxx hc.symm
      rw [WeierstrassCurve.Affine.Point.add_of_X_ne hx1x]
      have hsub : x - x1 ≠ 0 := sub_ne_zero_of_ne hxx
      have hsub' : x1 - x ≠ 0 := sub_ne_zero_of_ne hx1x
      have hL := @WeierstrassCurve.Affine.slope_of_X_ne _ _ secpW x1 x y1 y hx1x
      have hz3 : (((jacChord J x.val y.val).jz : Nat) : Fp)
          = (x - x1) * ((J.jz : Fp)) ^ 3 := by
        simp only [jacChord, cast_pMul, cast_pSub, cast_val_eq, hX, hY]
        ring
      refine ⟨pSub_lt _ _, pSub_lt _ _, pMul_lt _ _, ?_, ?_, ?_⟩
      · rw [hz3]
        intro hc
        rcases mul_eq_zero.mp hc with h | h
        · exact hsub h
        · exact hz (pow_eq_zero_iff (by norm_num) |>.mp h)
      · show (((jacChord J x.val y.val).jx : Nat) : Fp) = _
        rw [hz3, secpW_addX, hL]
        simp only [jacChord, cast_pMul, cast_pSub, cast_pAdd, cast_val_eq, hX, hY]
        field_simp [hsub']
        ring
      · show (((jacChord J x.val y.val).jy : Nat) : Fp) = _
        rw [hz3, secpW_addY, secpW_addX, hL]
        simp only [jacChord, cast_pMul, cast_pSub, cast_pAdd, cast_val_eq, hX, hY]
        field_simp [hsub']
        ring

theorem jacScalarAux_repr : ∀ (f k : Nat) {x y : Fp} (hns : secpW.Nonsingular x y)
    {J : JacPt} {A : secpW.Point}, JacRepr J A →
    JacRepr (jacScalarAux f k (rep (.some hns)) J)
      ((2 ^ f) • A + (k % 2 ^ f) • (.some hns : secpW.Point)) := by
  intro f
  induction f with
  | zero =>
    intro k x y hns J A h
    show JacRepr J _
    rw [pow_zero, one_nsmul, Nat.mod_one, zero_nsmul, add_zero]
    exact h
  | succ f ih =>
    intro k x y hns J A h
    have hstep : jacScalarAux (f + 1) k (rep (.some hns)) J =
        jacScalarAux f k (rep (.some hns))
          (if k / 2 ^ f % 2 = 1 then
            jacAddMixed (jacDouble J) (rep (.some hns)).x (rep (.some hns)).y
           else jacDouble J) := by
      simp only [jacScalarAux]
      rw [if_neg (Nat.succ_ne_zero _)]
    rw [hstep]
    have hdbl : (2 : Nat) ^ (f + 1) • A = (2 : Nat) ^ f • (A + A) := by
      rw [pow_succ', mul_nsmul, two_nsmul]
    rcases Nat.mod_two_eq_zero_or_one (k / 2 ^ f) with hbit | hbit
    · rw [if_neg (by rw [hbit]; omega)]
      have hres := ih k hns (jacDouble_repr h)
      rw [show k % 2 ^ (f + 1) = k % 2 ^ f by
        rw [Nat.mod_pow_succ, hbit, Nat.mul_zero, Nat.add_zero], hdbl]
      exact hres
    · rw [if_pos hbit]
      have hres := ih k hns (jacAddMixed_repr hns (jacDouble_repr h))
      rw [show k % 2 ^ (f + 1) = k % 2 ^ f + 2 ^ f by
        rw [Nat.mod_pow_succ, hbit, Nat.mul_one], hdbl]
      have hgrp : (2 : Nat) ^ f • (A + A) +
          (k % 2 ^ f + 2 ^ f) • (.some hns : secpW.Point) =
          (2 : Nat) ^ f • (A + A + .some hns) + (k % 2 ^ f) • (.some hns : secpW.Point) := by
        rw [nsmul_add ((A + A)) (WeierstrassCurve.Affine.Point.some hns) (2 ^ f), add_nsmul]
        abel
      rw [hgrp]
      exact hres

theorem jacToGo_repr {J : JacPt} {A : secpW.Point} (h : JacRepr J A) :
    jacToGo J = rep A := by
  obtain ⟨hbx, hby, hbz, hm⟩ := h
  cases A with
  | zero =>
    have hz0 : J.jz = 0 := (cast_eq_zero_lt hbz).mp hm
    rw [jacToGo, if_pos hz0]
    rfl
  | @some x y hns =>
    obtain ⟨hz, hX, hY⟩ := hm
    have hz0 : J.jz ≠ 0 := by
      intro hc
      apply hz
      rw [hc]
      simp
    rw [jacToGo, if_neg hz0]
    have hval : J.jz = ((J.jz : Fp)).val := (ZMod.val_cast_of_lt hbz).symm
    have hinv : pInv J.jz = (((J.jz : Fp))⁻¹).val := by
      conv_lhs => rw [hval]
      exact pInv_val _ hz
    show GoPoint.mk _ _ = GoPoint.mk x.val y.val
    have hxc : pMul J.jx (pMul (pInv J.jz) (pInv J.jz)) = x.val := by
      rw [← natCast_inj_lt (pMul_lt _ _) (ZMod.val_lt x), cast_pMul, cast_pMul, hinv,
        cast_val_eq, cast_val_eq, hX]
      field_simp
      exact Or.inl (by ring)
    have hyc : pMul J.jy (pMul (pInv J.jz) (pMul (pInv J.jz) (pInv J.jz))) = y.val := by
      rw [← natCast_inj_lt (pMul_lt _ _) (ZMod.val_lt y), cast_pMul, cast_pMul, cast_pMul,
        hinv, cast_val_eq, cast_val_eq, hY]
      field_simp
      exact Or.inl (by ring)
    rw [hxc, hyc]

/-- The Jacobian evaluator agrees with `ScalarMult` on non-infinity valid
points, for multipliers below `2 ^ 256`. -/
theorem scalarMultFast_eq (k : Nat) {x y : Fp} (hns : secpW.Nonsingular x y)
    (hk : k < 2 ^ 256) :
    scalarMultFast k (rep (.some hns)) = ScalarMult k (rep (.some hns)) := by
  have h0 : JacRepr ⟨1, 1, 0⟩ (0 : secpW.Point) := by
    refine ⟨by norm_num [secpP], by norm_num [secpP], by norm_num [secpP], ?_⟩
    show ((0 : Nat) : Fp) = 0
    simp
  have hlad := jacScalarAux_repr 256 k hns h0
  rw [nsmul_zero, zero_add, Nat.mod_eq_of_lt hk] at hlad
  rw [scalarMultFast, jacToGo_repr hlad, ScalarMult_rep k _ hk]

/-- `scalarMultFast_eq`, stated on decidable coordinate checks. -/
theorem scalarMultFast_eq_checks (k : Nat) (P : GoPoint)
    (h : P.x < secpP ∧ P.y < secpP ∧ goIsOnCurve P = true) (hk : k < 2 ^ 256) :
    scalarMultFast k P = ScalarMult k P := by
  obtain ⟨px, py⟩ := P
  obtain ⟨hx, hy, hc⟩ := h
  have heq : secpW.Equation (px : Fp) (py : Fp) := (goIsOnCurve_iff_equation px py).mp hc
  have hns := secpW_nonsingular_of_equation heq
  have hrep : rep (.some hns) = GoPoint.mk px py := by
    show GoPoint.mk ((px : Fp)).val ((py : Fp)).val = GoPoint.mk px py
    rw [ZMod.val_cast_of_lt hx, ZMod.val_cast_of_lt hy]
  rw [← hrep]
  exact scalarMultFast_eq k hns hk

/-- The group order annihilates the base point (kernel computation through
the Jacobian evaluator). -/
theorem nsmul_order_ptG : secpN • ptG = 0 := by
  apply rep_inj
  rw [← ScalarMult_rep secpN ptG (by norm_num [secpN]), rep_ptG]
  rw [← scalarMultFast_eq_checks secpN secpG (by decide) (by norm_num [secpN])]
  show scalarMultFast secpN secpG = rep (0 : secpW.Point)
  decide

theorem ScalarMult_mod_G (k : Nat) (hk : k < 2 ^ 256) :
    ScalarBaseMult (k % secpN) = ScalarBaseMult k := by
  have h1 : k % secpN < 2 ^ 256 := lt_of_le_of_lt (Nat.mod_le _ _) hk
  rw [ScalarBaseMult_rep _ h1, ScalarBaseMult_rep _ hk,
    nsmul_mod_order k ptG nsmul_order_ptG]

/-! ## Nullable points of the `crypto` package

The `crypto` package passes `*ECPoint` values around; `none` stands for the
Go `nil` pointer. Every non-nil point the package builds carries both
coordinates (`NewECPoint` applied to concrete big integers), so a point
value is a `GoPoint`. -/

/-- `PointAdd(p, q)`: `nil` when either argument is `nil`, otherwise
`curve.Add`. -/
def PointAdd : Option GoPoint → Option GoPoint → Option GoPoint
  | some P, some Q => some (pointAdd P Q)
  | _, _ => none

/-- `ScalarMult(k, p)` of the crypto package: `nil` in, `nil` out. The
scalar argument is a value (the module never passes a `nil` scalar). -/
def ScalarMultP (k : Nat) : Option GoPoint → Option GoPoint
  | some P => some (ScalarMult k P)
  | none => none

/-- `ECPoint.Equal`: both `nil` → true, one `nil` → false, otherwise
comparison of both coordinates. -/
def ptEqual : Option GoPoint → Option GoPoint → Bool
  | none, none => true
  | some P, some Q => decide (P = Q)
  | _, _ => false

/-- `ECPoint.IsOnCurve`: false for `nil`, else the curve equation check. -/
def IsOnCurveP : Option GoPoint → Bool
  | none => false
  | some P => goIsOnCurve P

/-- `ECPoint.IsIdentity`: true exactly for `nil` — a non-nil point with both
coordinates present is never "identity" by this check, even `(0, 0)`. -/
def IsIdentityP : Option GoPoint → Bool
  | none => true
  | some _ => false

/-! ## Pedersen commitments (`crypto` package) -/

/-- `Commitment`: a wrapper around a nullable curve point; the commitment
pointer itself is nullable, so commitment values flow as
`Option Commitment`. -/
structure Commitment where
  Point : Option GoPoint
deriving DecidableEq, Repr

/-- `CreateCommitment(amount, blinding) = amount·H + blinding·G`. The Go
error returns guard `nil` inputs and `nil` intermediate points, none of
which arise for value inputs, so the commitment is always built. -/
def CreateCommitment (amount blinding : Nat) : Commitment :=
  ⟨PointAdd (ScalarMultP amount (some HPoint)) (ScalarMultP blinding (some secpG))⟩

/-- `Commitment.Verify`: non-nil, point non-nil, on-curve, not identity
(the identity check is on pointer structure and never fires for a point
with coordinates). -/
def Commitment.Verify : Option Commitment → Bool
  | none => false
  | some c => IsOnCurveP c.Point && !IsIdentityP c.Point

/-- `Commitment.Add`: `nil` when either commitment is `nil`, otherwise the
point sum (which is a `nil` point when either point is `nil`). -/
def Commitment.Add : Option Commitment → Option Commitment → Option Commitment
  | some c, some other => some ⟨PointAdd c.Point other.Point⟩
  | _, _ => none

/-- `Commitment.Equal`: both `nil` → true, one `nil` → false, otherwise
point equality. -/
def Commitment.Equal : Option Commitment → Option Commitment → Bool
  | none, none => true
  | some c, some other => ptEqual c.Point other.Point
  | _, _ => false

/-- The summation loop of `VerifyCommitmentBalance`
(`sum = sum.Add(outputs[i])`). The Go loop returns false as soon as `sum`
is `nil`; here a `nil` sum propagates through `Add`, which yields the same
result because a `nil` sum also fails the final `Equal` against the
non-nil input. -/
def sumCommitments : Option Commitment → List (Option Commitment) → Option Commitment
  | sum, [] => sum
  | sum, o :: rest => sumCommitments (Commitment.Add sum o) rest

/-- `VerifyCommitmentBalance(input, outputs)`: false for `nil` input or no
outputs, otherwise compares the input with the left-to-right sum of the
outputs. -/
def VerifyCommitmentBalance (input : Option Commitment)
    (outputs : List (Option Commitment)) : Bool :=
  match input, outputs with
  | none, _ => false
  | some _, [] => false
  | some _, o :: rest => Commitment.Equal input (sumCommitments o rest)

/-! ## Nullifiers (`crypto` package) -/

/-- `GenerateNullifier(x, P) = x · HashToPoint(P.Bytes())` (`none` = the Go
error paths: `nil` inputs or a failed hash-to-point). -/
def GenerateNullifier (oneTimePrivKey : Nat) (oneTimeAddr : GoPoint) : Option GoPoint :=
  match HashToPoint (ECPointBytes oneTimeAddr) with
  | some hp => some (ScalarMult oneTimePrivKey hp)
  | none => none

/-- `NullifierFromBytes`: exactly 33 bytes, decompress, then
`Nullifier.Verify` (on-curve; the identity check is on pointer structure
and never fires for a decompressed point). -/
def NullifierFromBytes (data : List Nat) : Option GoPoint :=
  if data.length = 33 then
    match DecompressPoint data with
    | some point => if goIsOnCurve point then some point else none
    | none => none
  else none

/-! ## ECDSA signature verification (`crypto` package + btcec) -/

/-- `btcec.ParsePubKey` restricted to the 33-byte compressed form the
module hands it: format byte 2 or 3, canonical X below the field prime,
Y recovered as the modular square root of `x³ + 7` matching the parity
bit (the library rejects a non-residue; negation of the root is the
normalized field negation). -/
def ParsePubKey (data : List Nat) : Option GoPoint :=
  if data.length = 33 then
    let format := data.headD 0
    if format = 2 ∨ format = 3 then
      let x := bytesToNat (data.drop 1)
      if x < secpP then
        match modSqrt ((x * x % secpP * x + 7) % secpP) with
        | some y0 =>
          if (decide (y0 % 2 = 1)) = (decide (format = 3)) then some ⟨x, y0⟩
          else some ⟨x, (secpP - y0) % secpP⟩
        | none => none
      else none
    else none
  else none

/-- Inverse modulo the group order `n` (prime), by Fermat. -/
def nInv (a : Nat) : Nat := powMod a (secpN - 2) secpN

/-- `ecdsa.Signature.Verify` of btcec: rejects zero `r`/`s`, reduces the
32-byte hash modulo `n`, computes `w = s⁻¹`, `u1 = e·w`, `u2 = r·w` and the
point `u1·G + u2·Q`, rejects the point at infinity and compares the
X-coordinate modulo `n` against `r`. btcec evaluates the two scalar
multiplications in Jacobian coordinates; they are embedded through the
Jacobian evaluator `scalarMultFast`, which agrees with the affine
`ScalarMult` on every point that reaches this function
(`ecdsaVerify_eq_affine`). -/
def ecdsaVerify (Q : GoPoint) (msgHash : List Nat) (r s : Nat) : Bool :=
  if r = 0 ∨ s = 0 then false
  else
    let e := bytesToNat msgHash % secpN
    let w := nInv s
    let u1 := e * w % secpN
    let u2 := r * w % secpN
    let X := pointAdd (scalarMultFast u1 secpG) (scalarMultFast u2 Q)
    if X = infPt then false else decide (X.x % secpN = r)

/-- `ecdsaVerify` written on the affine interface operations
(`ScalarBaseMult`/`ScalarMult`). -/
def ecdsaVerifyAffine (Q : GoPoint) (msgHash : List Nat) (r s : Nat) : Bool :=
  if r = 0 ∨ s = 0 then false
  else
    let e := bytesToNat msgHash % secpN
    let w := nInv s
    let u1 := e * w % secpN
    let u2 := r * w % secpN
    let X := pointAdd (ScalarBaseMult u1) (ScalarMult u2 Q)
    if X = infPt then false else decide (X.x % secpN = r)

theorem secpN_lt_pow : secpN < 2 ^ 256 := by norm_num [secpN]

theorem ecdsaVerify_eq_affine (Q : GoPoint) (msgHash : List Nat) (r s : Nat)
    (hQ : Q.x < secpP ∧ Q.y < secpP ∧ goIsOnCurve Q = true) :
    ecdsaVerify Q msgHash r s = ecdsaVerifyAffine Q msgHash r s := by
  simp only [ecdsaVerify, ecdsaVerifyAffine]
  have h1 : bytesToNat msgHash % secpN * nInv s % secpN < 2 ^ 256 :=
    lt_trans (Nat.mod_lt _ (by norm_num [secpN])) secpN_lt_pow
  have h2 : r * nInv s % secpN < 2 ^ 256 :=
    lt_trans (Nat.mod_lt _ (by norm_num [secpN])) secpN_lt_pow
  rw [scalarMultFast_eq_checks _ secpG (by decide) h1,
    scalarMultFast_eq_checks _ Q hQ h2]
  rfl

/-- `VerifySignature(pubKey, message, signature)` (signature.go): splits the
64-byte signature into `r ‖ s` rejecting scalar overflow (`SetByteSlice`),
reparses the public key from its compressed form, hashes the message and
runs the ECDSA verification. -/
def VerifySignature (pubKey : Option GoPoint) (message signature : List Nat) : Bool :=
  match pubKey with
  | none => false
  | some P =>
    if message.length = 0 ∨ signature.length ≠ 64 then false
    else
      let r := bytesToNat (signature.take 32)
      let s := bytesToNat (signature.drop 32)
      if secpN ≤ r ∨ secpN ≤ s then false
      else
        match ParsePubKey (Compressed P) with
        | some Q => ecdsaVerify Q (Hash256 message) r s
        | none => false

/-- `VerifyNullifierSignature(addr, nullifier, sig)` (crypto package): the
signed message is the nullifier's compressed bytes. -/
def VerifyNullifierSignature (oneTimeAddr nullifier : Option GoPoint)
    (signature : List Nat) : Bool :=
  match oneTimeAddr, nullifier with
  | some addr, some nf =>
    if signature.length ≠ 64 then false
    else
      let message := Compressed nf
      if message.length = 0 then false
      else VerifySignature (some addr) message signature
  | _, _ => false

/-- `VerifyUnshieldSignature(addr, nullifier, recipient, amount, sig)`
(crypto package): the signed message is
`nullifier.Bytes() ‖ recipient ‖ amount`. -/
def VerifyUnshieldSignature (oneTimeAddr nullifier : Option GoPoint)
    (recipientAddr amount signature : List Nat) : Bool :=
  match oneTimeAddr, nullifier with
  | some addr, some nf =>
    if signature.length ≠ 64 then false
    else if recipientAddr = [] ∨ amount = [] then false
    else VerifySignature (some addr) (Compressed nf ++ recipientAddr ++ amount) signature
  | _, _ => false

/-! ## Stealth addresses (`crypto` package) -/

/-- `GenerateStealthAddress` with the random scalar `r` passed explicitly
(the Go code draws it from `crypto/rand`). Returns the one-time address
`Hs(r·V)·G + S`, the transaction public key `r·G` and the shared secret
`Hash256((r·V).Bytes())`; the `nil`-point error paths cannot arise for
value inputs. -/
def GenerateStealthAddress (r : Nat) (recipientViewPubKey recipientSpendPubKey : GoPoint) :
    GoPoint × GoPoint × List Nat :=
  let txPubKey := ScalarBaseMult r
  let temp := ScalarMult r recipientViewPubKey
  let sharedSecret := Hash256 (ECPointBytes temp)
  let hs := HashToScalar sharedSecret
  let hsG := ScalarBaseMult hs
  let oneTimeAddr := pointAdd hsG recipientSpendPubKey
  (oneTimeAddr, txPubKey, sharedSecret)

/-- `CheckIfMine(P, R, v, S, s)`: recomputes the shared secret from the view
private key and the transaction public key, derives the expected one-time
address and, on a match, returns the one-time private key
`Hs(shared) + s mod n`. -/
def CheckIfMine (oneTimeAddr txPubKey : GoPoint) (myViewPrivKey : Nat)
    (mySpendPubKey : GoPoint) (mySpendPrivKey : Nat) : Bool × Option Nat :=
  let temp := ScalarMult myViewPrivKey txPubKey
  let sharedSecret := Hash256 (ECPointBytes temp)
  let hs := HashToScalar sharedSecret
  let hsG := ScalarBaseMult hs
  let expectedAddr := pointAdd hsG mySpendPubKey
  if expectedAddr = oneTimeAddr then
    (true, some ((hs + mySpendPrivKey) % secpN))
  else
    (false, none)

/-! ## Strings and encodings used by the keeper

Go strings are embedded as byte lists. -/

/-- `fmt.Sprintf("%X", bytes)`: upper-case hex encoding. -/
def hexDigit (d : Nat) : Nat := if d < 10 then 48 + d else 55 + d

def hexUpper (bs : List Nat) : List Nat :=
  bs.foldr (fun b acc => hexDigit (b / 16) :: hexDigit (b % 16) :: acc) []

/-- Decimal digit run, accumulator style (`big.Int.SetString` base 10). -/
def parseDecAux : List Nat → Nat → Option Nat
  | [], acc => some acc
  | c :: rest, acc =>
    if 48 ≤ c ∧ c ≤ 57 then parseDecAux rest (acc * 10 + (c - 48)) else none

/-- `math.NewIntFromString`: an optional leading minus sign, decimal digits,
and the 256-bit magnitude cap of `cosmossdk.io/math.Int`. -/
def NewIntFromString (s : List Nat) : Option Int :=
  match s with
  | [] => none
  | c :: rest =>
    if c = 45 then
      if rest = [] then none
      else
        match parseDecAux rest 0 with
        | some n => if n < 2 ^ 256 then some (-(n : Int)) else none
        | none => none
    else
      match parseDecAux s 0 with
      | some n => if n < 2 ^ 256 then some (n : Int) else none
      | none => none

/-! ## Bech32 account addresses

`sdk.AccAddressFromBech32` decodes a bech32 string (BIP-173: charset,
checksum, 5-to-8-bit regrouping without padding), requires the chain's
account prefix (`hikari`, per the chain configuration) and accepts a
non-empty payload of at most 32 bytes (`sdk.VerifyAddressFormat`). -/

/-- The 32 bech32 data characters `qpzry9x8gf2tvdw0s3jn54khce6mua7l`. -/
def bech32Charset : List Nat :=
  [113, 112, 122, 114, 121, 57, 120, 56, 103, 102, 50, 116, 118, 100, 119, 48,
   115, 51, 106, 110, 53, 52, 107, 104, 99, 101, 54, 109, 117, 97, 55, 108]

def idxOfAux : List Nat → Nat → Nat → Option Nat
  | [], _, _ => none
  | x :: rest, c, i => if x = c then some i else idxOfAux rest c (i + 1)

def bech32Gen : List Nat :=
  [0x3b6a57b2, 0x26508e6b, 0x1ea119fa, 0x3d4233dd, 0x2a1462b3]

def bech32PolymodStep (chk v : Nat) : Nat :=
  let b := chk / 2 ^ 25
  let chk1 := Nat.xor (chk % 2 ^ 25 * 32) v
  (List.range 5).foldl
    (fun acc i => if b / 2 ^ i % 2 = 1 then Nat.xor acc (bech32Gen.getD i 0) else acc)
    chk1

def bech32Polymod (values : List Nat) : Nat := values.foldl bech32PolymodStep 1

def bech32HrpExpand (hrp : List Nat) : List Nat :=
  hrp.map (fun c => c / 32) ++ 0 :: hrp.map (fun c => c % 32)

/-- Position of the last separator character `'1'`. -/
def lastSepAux : List Nat → Nat → Option Nat → Option Nat
  | [], _, best => best
  | c :: rest, i, best => lastSepAux rest (i + 1) (if c = 49 then some i else best)

def lowerByte (c : Nat) : Nat := if 65 ≤ c ∧ c ≤ 90 then c + 32 else c

def mapCharValues : List Nat → Option (List Nat)
  | [] => some []
  | c :: rest =>
    match idxOfAux bech32Charset c 0, mapCharValues rest with
    | some v, some vs => some (v :: vs)
    | _, _ => none

/-- bech32 decoding: printable characters, no mixed case, split at the last
`'1'`, non-empty human-readable part, at least six data characters, valid
data characters and checksum; returns the human-readable part and the
5-bit data values without the checksum. -/
def bech32Decode (s : List Nat) : Option (List Nat × List Nat) :=
  if ¬ (s.all fun c => decide (33 ≤ c) && decide (c ≤ 126)) then none
  else if (s.any fun c => decide (65 ≤ c) && decide (c ≤ 90)) &&
      (s.any fun c => decide (97 ≤ c) && decide (c ≤ 122)) then none
  else
    let t := s.map lowerByte
    match lastSepAux t 0 none with
    | none => none
    | some pos =>
      if pos = 0 ∨ t.length < pos + 7 then none
      else
        match mapCharValues (t.drop (pos + 1)) with
        | none => none
        | some values =>
          if bech32Polymod (bech32HrpExpand (t.take pos) ++ values) = 1 then
            some (t.take pos, values.take (values.length - 6))
          else none

/-- 5-bit to 8-bit regrouping, strict (no padding allowed to remain). -/
def convert5to8Aux : List Nat → Nat → Nat → List Nat → Option (List Nat)
  | [], acc, bits, out =>
    if 5 ≤ bits ∨ acc * 2 ^ (8 - bits) % 256 ≠ 0 then none else some out.reverse
  | v :: rest, acc, bits, out =>
    let acc1 := acc * 32 + v
    let bits1 := bits + 5
    if 8 ≤ bits1 then
      convert5to8Aux rest acc1 (bits1 - 8) (acc1 / 2 ^ (bits1 - 8) % 256 :: out)
    else
      convert5to8Aux rest acc1 bits1 out

/-- The chain's bech32 account prefix `"hikari"`. -/
def hikariHrp : List Nat := [104, 105, 107, 97, 114, 105]

/-- `sdk.AccAddressFromBech32`: decode, regroup, check the account prefix
and the address length bounds. -/
def AccAddressFromBech32 (address : List Nat) : Option (List Nat) :=
  if address = [] then none
  else
    match bech32Decode address with
    | none => none
    | some (hrp, data) =>
      match convert5to8Aux data 0 0 [] with
      | none => none
      | some bz =>
        if hrp = hikariHrp ∧ bz.length ≠ 0 ∧ bz.length ≤ 32 then some bz else none

/-! ## Module types (`x/privacy/types`)

The proto-generated message types, with byte-slice fields as byte lists;
a `nil` zk-proof and an empty proof collapse to `[]` (the handlers test
`msg.ZkProof == nil || len(msg.ZkProof.Proof) == 0`). -/

structure TypesECPoint where
  X : List Nat
  Y : List Nat
deriving DecidableEq, Repr

structure OneTimeAddress where
  Address : TypesECPoint
  TxPublicKey : TypesECPoint
deriving DecidableEq, Repr

/-- `types.Commitment` (the message-level Pedersen commitment wrapper;
distinct from the crypto package's `Commitment`). -/
structure TypesCommitment where
  Commitment : TypesECPoint
deriving DecidableEq, Repr

structure EncryptedNote where
  EncryptedData : List Nat
  Nonce : List Nat
  EphemeralKey : TypesECPoint
deriving DecidableEq, Repr

structure PrivateDeposit where
  Denom : List Nat
  Index : Nat
  Commitment : TypesCommitment
  OneTimeAddress : OneTimeAddress
  EncryptedNote : EncryptedNote
  Nullifier : Option (List Nat)
  CreatedAtHeight : Int
  TxHash : List Nat
deriving DecidableEq, Repr

structure UsedNullifier where
  Nullifier : List Nat
  SpentAtHeight : Int
  SpentTxHash : List Nat
  Denom : List Nat
deriving DecidableEq, Repr

/-- The parameter fields the message handlers read. -/
structure Params where
  Enabled : Bool
  AllowedDenoms : List (List Nat)
  MinShieldAmounts : List (List Nat × List Nat)
  MaxDepositsPerTx : Nat
  MaxMemoSize : Nat
  Phase : List Nat
deriving DecidableEq, Repr

def phase1Str : List Nat := [112, 104, 97, 115, 101, 49]

def phase2Str : List Nat := [112, 104, 97, 115, 101, 50]

structure Coin where
  Denom : List Nat
  Amount : Int
deriving DecidableEq, Repr

structure MsgShield where
  Sender : List Nat
  Amount : Coin
  OneTimeAddress : OneTimeAddress
  Commitment : TypesCommitment
  EncryptedNote : EncryptedNote
deriving DecidableEq, Repr

structure TransferInput where
  DepositIndex : Nat
  Nullifier : List Nat
  Signature : List Nat
deriving DecidableEq, Repr

structure TransferOutput where
  Denom : List Nat
  OneTimeAddress : OneTimeAddress
  Commitment : TypesCommitment
  EncryptedNote : EncryptedNote
deriving DecidableEq, Repr

structure MsgPrivateTransfer where
  Denom : List Nat
  Inputs : List TransferInput
  Outputs : List TransferOutput
  BalanceCommitment : TypesCommitment
  ZkProof : List Nat
deriving DecidableEq, Repr

structure MsgUnshield where
  Recipient : List Nat
  Denom : List Nat
  Amount : List Nat
  Nullifier : List Nat
  Commitment : TypesCommitment
  DepositIndex : Nat
  Signature : List Nat
  ZkProof : List Nat
deriving DecidableEq, Repr

/-! ## Chain state

The module's KV stores, as association lists with overwrite-on-set
(`kvSet`), plus the bank balances the handlers touch. -/

def kvGet {α β : Type} [DecidableEq α] : List (α × β) → α → Option β
  | [], _ => none
  | (k, v) :: rest, key => if key = k then some v else kvGet rest key

def kvSet {α β : Type} [DecidableEq α] : List (α × β) → α → β → List (α × β)
  | [], key, v => [(key, v)]
  | (k, w) :: rest, key, v =>
    if key = k then (k, v) :: rest else (k, w) :: kvSet rest key v

/-- Transaction context: block height and the raw transaction bytes. -/
structure Ctx where
  blockHeight : Int
  txBytes : List Nat
deriving DecidableEq, Repr

structure ChainState where
  params : Params
  deposits : List ((List Nat × Nat) × PrivateDeposit)
  nextIndex : List (List Nat × Nat)
  nullifiers : List (List Nat × UsedNullifier)
  bank : List ((List Nat × List Nat) × Int)
deriving DecidableEq, Repr

/-- `Keeper.GetParams` (stored params; the unmarshalling error path is not
reachable for states written by the module). -/
def GetParams (st : ChainState) : Params := st.params

def GetNextDepositIndex (st : ChainState) (denom : List Nat) : Nat :=
  (kvGet st.nextIndex denom).getD 0

def SetNextDepositIndex (st : ChainState) (denom : List Nat) (index : Nat) : ChainState :=
  { st with nextIndex := kvSet st.nextIndex denom index }

/-- `Keeper.IncrementDepositIndex`: returns the current index and stores
its successor. -/
def IncrementDepositIndex (st : ChainState) (denom : List Nat) : Nat × ChainState :=
  let currentIndex := GetNextDepositIndex st denom
  (currentIndex, SetNextDepositIndex st denom (currentIndex + 1))

def SetDeposit (st : ChainState) (deposit : PrivateDeposit) : ChainState :=
  { st with deposits := kvSet st.deposits (deposit.Denom, deposit.Index) deposit }

def GetDeposit (st : ChainState) (denom : List Nat) (index : Nat) : Option PrivateDeposit :=
  kvGet st.deposits (denom, index)

def IsNullifierUsed (st : ChainState) (nullifier : List Nat) : Bool :=
  (kvGet st.nullifiers nullifier).isSome

def SetNullifierUsed (st : ChainState) (un : UsedNullifier) : ChainState :=
  { st with nullifiers := kvSet st.nullifiers un.Nullifier un }

def GetNullifier (st : ChainState) (nullifier : List Nat) : Option UsedNullifier :=
  kvGet st.nullifiers nullifier

/-- Modelled from the spec: `CheckNullifierUsed` is called by the handlers
and the querier but its definition is not among the repository's source
files; the spec describes the check as membership of the nullifier bytes in
the used-nullifier set, which is the keeper's `IsNullifierUsed` store
lookup. -/
def CheckNullifierUsed (st : ChainState) (nullifier : List Nat) : Bool :=
  IsNullifierUsed st nullifier

/-! ## Bank (the `x/bank` operations the handlers invoke) -/

/-- The privacy module account (keyed by the module name `"privacy"`). -/
def moduleAddr : List Nat := [112, 114, 105, 118, 97, 99, 121]

def bankGet (bank : List ((List Nat × List Nat) × Int)) (addr denom : List Nat) : Int :=
  (kvGet bank (addr, denom)).getD 0

def bankSet (bank : List ((List Nat × List Nat) × Int)) (addr denom : List Nat)
    (v : Int) : List ((List Nat × List Nat) × Int) :=
  kvSet bank (addr, denom) v

/-- A bank transfer; errors (`none`) on insufficient sender funds. -/
def sendCoins (bank : List ((List Nat × List Nat) × Int))
    (fromAddr toAddr denom : List Nat) (amt : Int) :
    Option (List ((List Nat × List Nat) × Int)) :=
  let fb := bankGet bank fromAddr denom
  if fb < amt then none
  else
    let bank1 := bankSet bank fromAddr denom (fb - amt)
    some (bankSet bank1 toAddr denom (bankGet bank1 toAddr denom + amt))

def SendCoinsFromAccountToModule (st : ChainState) (sender denom : List Nat)
    (amt : Int) : Option ChainState :=
  (sendCoins st.bank sender moduleAddr denom amt).map fun b => { st with bank := b }

def BurnCoins (st : ChainState) (denom : List Nat) (amt : Int) : Option ChainState :=
  let fb := bankGet st.bank moduleAddr denom
  if fb < amt then none
  else some { st with bank := bankSet st.bank moduleAddr denom (fb - amt) }

def MintCoins (st : ChainState) (denom : List Nat) (amt : Int) : ChainState :=
  { st with bank := bankSet st.bank moduleAddr denom (bankGet st.bank moduleAddr denom + amt) }

def SendCoinsFromModuleToAccount (st : ChainState) (recipient denom : List Nat)
    (amt : Int) : Option ChainState :=
  (sendCoins st.bank moduleAddr recipient denom amt).map fun b => { st with bank := b }

/-! ## Point validation and keeper-level signature checks -/

/-- `validateECPoint` (msg_server.go): Phase-1 structural validation of a
message point — LENGTH CHECKS ONLY. The on-curve and non-identity checks
are an acknowledged TODO in the source. -/
def validateECPoint (point : TypesECPoint) : Bool :=
  decide (point.X.length = 32) && decide (point.Y.length = 32)

/-- `convertToECPoint` (keeper/crypto.go): 32-byte coordinates parsed as
big-endian integers; `none` = Go `nil`. -/
def convertToECPoint (point : TypesECPoint) : Option GoPoint :=
  if point.X.length = 32 ∧ point.Y.length = 32 then
    some ⟨bytesToNat point.X, bytesToNat point.Y⟩
  else none

/-- `Keeper.ValidateECPointOnCurve` (keeper/crypto.go): conversion,
`IsOnCurve` and `IsIdentity` (the latter is a pointer-structure check that
never fires for a converted point). This function exists in the repository
but is not called by any message handler. -/
def ValidateECPointOnCurve (point : TypesECPoint) : Bool :=
  match convertToECPoint point with
  | none => false
  | some p => IsOnCurveP (some p) && !IsIdentityP (some p)

/-- `Keeper.VerifyNullifierSignature` (keeper/crypto.go); `false` stands
for each of the Go error returns. -/
def keeperVerifyNullifierSignature (deposit : PrivateDeposit)
    (nullifier signature : List Nat) : Bool :=
  if nullifier.length = 0 ∨ signature.length ≠ 64 then false
  else
    match convertToECPoint deposit.OneTimeAddress.Address with
    | none => false
    | some oneTimeAddr =>
      match NullifierFromBytes nullifier with
      | none => false
      | some nf => VerifyNullifierSignature (some oneTimeAddr) (some nf) signature

/-- `Keeper.VerifyUnshieldSignature` (keeper/crypto.go). -/
def keeperVerifyUnshieldSignature (deposit : PrivateDeposit)
    (nullifier recipientAddr amount signature : List Nat) : Bool :=
  if nullifier.length = 0 ∨ recipientAddr = [] ∨ amount = [] ∨ signature.length ≠ 64 then false
  else
    match convertToECPoint deposit.OneTimeAddress.Address with
    | none => false
    | some oneTimeAddr =>
      match NullifierFromBytes nullifier with
      | none => false
      | some nf =>
        VerifyUnshieldSignature (some oneTimeAddr) (some nf) recipientAddr amount signature

/-! ## Message handlers (msg_server.go)

Each handler returns `none` for every Go error return and
`some (state, response)` on success. Event emission and logging carry no
state and are omitted. -/

/-- The minimum-shield-amount check of `Shield`: a configured, non-empty
minimum must parse and not exceed the amount. -/
def checkMinShield (params : Params) (denom : List Nat) (amount : Int) : Option Unit :=
  match kvGet params.MinShieldAmounts denom with
  | none => some ()
  | some minAmountStr =>
    if minAmountStr = [] then some ()
    else
      match NewIntFromString minAmountStr with
      | none => none
      | some minAmount => if amount < minAmount then none else some ()

/-- `msgServer.Shield`: parameter and message validation in source order,
then burn-from-sender, index increment and deposit storage. The response
carries the denomination and the deposit index (`merkle_root` is `nil` in
Phase 1). -/
def Shield (st : ChainState) (ctx : Ctx) (msg : MsgShield) :
    Option (ChainState × (List Nat × Nat)) :=
  let params := GetParams st
  if params.Enabled = false then none
  else
    match AccAddressFromBech32 msg.Sender with
    | none => none
    | some sender =>
      let denom := msg.Amount.Denom
      if ¬ denom ∈ params.AllowedDenoms then none
      else if msg.Amount.Amount ≤ 0 then none
      else
        match checkMinShield params denom msg.Amount.Amount with
        | none => none
        | some _ =>
          if validateECPoint msg.OneTimeAddress.Address = false then none
          else if validateECPoint msg.OneTimeAddress.TxPublicKey = false then none
          else if validateECPoint msg.Commitment.Commitment = false then none
          else if msg.EncryptedNote.EncryptedData.length = 0 then none
          else if params.MaxMemoSize + 48 < msg.EncryptedNote.EncryptedData.length then none
          else if msg.EncryptedNote.Nonce.length ≠ 12 then none
          else if validateECPoint msg.EncryptedNote.EphemeralKey = false then none
          else
            match SendCoinsFromAccountToModule st sender denom msg.Amount.Amount with
            | none => none
            | some st1 =>
              match BurnCoins st1 denom msg.Amount.Amount with
              | none => none
              | some st2 =>
                let r := IncrementDepositIndex st2 denom
                let deposit : PrivateDeposit :=
                  { Denom := denom
                    Index := r.1
                    Commitment := msg.Commitment
                    OneTimeAddress := msg.OneTimeAddress
                    EncryptedNote := msg.EncryptedNote
                    Nullifier := none
                    CreatedAtHeight := ctx.blockHeight
                    TxHash := hexUpper ctx.txBytes }
                some (SetDeposit r.2 deposit, (denom, r.1))

/-- One iteration of `PrivateTransfer`'s input loop: nullifier present and
unused; in Phase 1 the referenced deposit must exist, carry a 64-byte
signature over the nullifier that verifies against its one-time address,
and is rewritten with its `Nullifier` field set; finally the nullifier is
marked used. -/
def processInput (ctx : Ctx) (params : Params) (denom : List Nat)
    (st : ChainState) (input : TransferInput) : Option ChainState :=
  if input.Nullifier.length = 0 then none
  else if CheckNullifierUsed st input.Nullifier = true then none
  else
    let afterPhase1 : Option ChainState :=
      if params.Phase = phase1Str then
        match GetDeposit st denom input.DepositIndex with
        | none => none
        | some deposit =>
          if input.Signature.length = 0 then none
          else if keeperVerifyNullifierSignature deposit input.Nullifier input.Signature = false
          then none
          else some (SetDeposit st { deposit with Nullifier := some input.Nullifier })
      else some st
    match afterPhase1 with
    | none => none
    | some st1 =>
      some (SetNullifierUsed st1
        { Nullifier := input.Nullifier
          SpentAtHeight := ctx.blockHeight
          SpentTxHash := hexUpper ctx.txBytes
          Denom := denom })

def processInputs (ctx : Ctx) (params : Params) (denom : List Nat) :
    ChainState → List TransferInput → Option ChainState
  | st, [] => some st
  | st, input :: rest =>
    match processInput ctx params denom st input with
    | none => none
    | some st1 => processInputs ctx params denom st1 rest

/-- The per-output validation of `PrivateTransfer` in source order. -/
def validateOutput (denom : List Nat) (output : TransferOutput) : Bool :=
  decide (output.Denom = denom) &&
  validateECPoint output.OneTimeAddress.Address &&
  validateECPoint output.OneTimeAddress.TxPublicKey &&
  validateECPoint output.Commitment.Commitment &&
  !decide (output.EncryptedNote.EncryptedData.length = 0) &&
  decide (output.EncryptedNote.Nonce.length = 12) &&
  validateECPoint output.EncryptedNote.EphemeralKey

def processOutput (ctx : Ctx) (denom : List Nat) (st : ChainState)
    (output : TransferOutput) : Option (ChainState × Nat) :=
  if validateOutput denom output = false then none
  else
    let r := IncrementDepositIndex st denom
    let deposit : PrivateDeposit :=
      { Denom := denom
        Index := r.1
        Commitment := output.Commitment
        OneTimeAddress := output.OneTimeAddress
        EncryptedNote := output.EncryptedNote
        Nullifier := none
        CreatedAtHeight := ctx.blockHeight
        TxHash := hexUpper ctx.txBytes }
    some (SetDeposit r.2 deposit, r.1)

def processOutputs (ctx : Ctx) (denom : List Nat) :
    ChainState → List TransferOutput → Option (ChainState × List Nat)
  | st, [] => some (st, [])
  | st, output :: rest =>
    match processOutput ctx denom st output with
    | none => none
    | some (st1, idx) =>
      match processOutputs ctx denom st1 rest with
      | none => none
      | some (st2, idxs) => some (st2, idx :: idxs)

/-- `msgServer.PrivateTransfer`: parameter checks, input processing,
balance-commitment structural validation, Phase-2 proof presence, output
deposit creation. The response carries the new output indices. -/
def PrivateTransfer (st : ChainState) (ctx : Ctx) (msg : MsgPrivateTransfer) :
    Option (ChainState × List Nat) :=
  let params := GetParams st
  if params.Enabled = false then none
  else
    let denom := msg.Denom
    if ¬ denom ∈ params.AllowedDenoms then none
    else if msg.Inputs.length = 0 then none
    else if params.MaxDepositsPerTx < msg.Inputs.length then none
    else if msg.Outputs.length = 0 then none
    else if params.MaxDepositsPerTx < msg.Outputs.length then none
    else
      match processInputs ctx params denom st msg.Inputs with
      | none => none
      | some st1 =>
        if validateECPoint msg.BalanceCommitment.Commitment = false then none
        else if params.Phase = phase2Str ∧ msg.ZkProof.length = 0 then none
        else
          match processOutputs ctx denom st1 msg.Outputs with
          | none => none
          | some (st2, outputIndices) => some (st2, outputIndices)

/-- `msgServer.Unshield`: parameter and message validation, Phase-1 deposit
signature check and deposit rewrite, nullifier marking, then mint-to-
recipient of the amount parsed from the message string. -/
def Unshield (st : ChainState) (ctx : Ctx) (msg : MsgUnshield) :
    Option (ChainState × Coin) :=
  let params := GetParams st
  if params.Enabled = false then none
  else
    match AccAddressFromBech32 msg.Recipient with
    | none => none
    | some recipient =>
      let denom := msg.Denom
      if ¬ denom ∈ params.AllowedDenoms then none
      else
        match NewIntFromString msg.Amount with
        | none => none
        | some amount =>
          if amount ≤ 0 then none
          else if msg.Nullifier.length = 0 then none
          else if CheckNullifierUsed st msg.Nullifier = true then none
          else if validateECPoint msg.Commitment.Commitment = false then none
          else
            let afterPhase1 : Option ChainState :=
              if params.Phase = phase1Str then
                match GetDeposit st denom msg.DepositIndex with
                | none => none
                | some deposit =>
                  if msg.Signature.length = 0 then none
                  else if keeperVerifyUnshieldSignature deposit msg.Nullifier
                      msg.Recipient msg.Amount msg.Signature = false then none
                  else some (SetDeposit st { deposit with Nullifier := some msg.Nullifier })
              else some st
            match afterPhase1 with
            | none => none
            | some st1 =>
              if params.Phase = phase2Str ∧ msg.ZkProof.length = 0 then none
              else
                let st2 := SetNullifierUsed st1
                  { Nullifier := msg.Nullifier
                    SpentAtHeight := ctx.blockHeight
                    SpentTxHash := hexUpper ctx.txBytes
                    Denom := denom }
                let st3 := MintCoins st2 denom amount
                match SendCoinsFromModuleToAccount st3 recipient denom amount with
                | none => none
                | some st4 => some (st4, ⟨denom, amount⟩)

/-! ## Message delivery -/

/-- Modelled from the spec: cosmos-sdk's baseapp executes each message in a
branched (cache) store context, discards every write when the handler
returns an error and commits them on success; that rollback machinery is
the SDK's, outside this repository's files. Delivery therefore keeps the
pre-state on error. -/
def deliverShield (st : ChainState) (ctx : Ctx) (msg : MsgShield) : ChainState :=
  match Shield st ctx msg with
  | none => st
  | some (st1, _) => st1

/-- Modelled from the spec: see `deliverShield`. -/
def deliverPrivateTransfer (st : ChainState) (ctx : Ctx) (msg : MsgPrivateTransfer) : ChainState :=
  match PrivateTransfer st ctx msg with
  | none => st
  | some (st1, _) => st1

/-- Modelled from the spec: see `deliverShield`. -/
def deliverUnshield (st : ChainState) (ctx : Ctx) (msg : MsgUnshield) : ChainState :=
  match Unshield st ctx msg with
  | none => st
  | some (st1, _) => st1

/-! ## Concrete instances used by the claim theorems below -/

/-- A zeroed 32-byte coordinate. -/
def zero32 : List Nat := List.replicate 32 0

def zeroTypesPoint : TypesECPoint := ⟨zero32, zero32⟩

-- address bytes of hikari1qypqxpq9qcrsszg2pvxq6rs0zqg3yyc5kzr7u4
def hikariAddrStr : List Nat :=
  [104, 105, 107, 97, 114, 105, 49, 113, 121, 112, 113, 120, 112, 113, 57, 113, 99, 114, 115, 115, 122, 103, 50, 112, 118, 120, 113, 54, 114, 115, 48, 122, 113, 103, 51, 121, 121, 99, 53, 107, 122, 114, 55, 117, 52]

def ulightStr : List Nat :=
  [117, 108, 105, 103, 104, 116]

def c1d : Nat := 7719472615821079694904732333912527190217998977709370935963838933860875309329

def c1Qx : Nat := 35826991941973211494003564265461426073026284918572421206325859877044495085994

def c1Qy : Nat := 25491041833361137486709012056693088297620945779048998614056404517283089805761

def c1N1bytes : List Nat :=
  [3, 119, 74, 231, 248, 88, 169, 65, 30, 94, 244, 36, 107, 112, 198, 90, 172, 86, 73, 152, 11, 229, 193, 120, 145, 187, 236, 23, 137, 93, 160, 8, 203]

def c1N2bytes : List Nat :=
  [3, 242, 135, 115, 194, 217, 117, 40, 139, 199, 209, 210, 5, 195, 116, 134, 81, 176, 117, 251, 198, 97, 14, 88, 205, 222, 237, 223, 143, 25, 64, 90, 168]

def c1Sig1 : List Nat :=
  [92, 189, 240, 100, 110, 93, 180, 234, 163, 152, 243, 101, 242, 234, 122, 14, 61, 65, 155, 126, 3, 48, 227, 156, 233, 43, 221, 237, 202, 196, 249, 188, 12, 119, 119, 46, 188, 108, 140, 100, 124, 148, 172, 222, 164, 111, 128, 205, 63, 209, 54, 179, 112, 125, 147, 19, 40, 61, 61, 200, 127, 43, 138, 85]

def c1Sig2 : List Nat :=
  [172, 212, 132, 226, 240, 199, 246, 83, 9, 173, 23, 138, 159, 85, 154, 189, 224, 151, 150, 151, 76, 87, 231, 20, 195, 95, 17, 13, 252, 39, 204, 190, 179, 226, 30, 206, 130, 244, 32, 83, 241, 78, 212, 40, 20, 124, 89, 164, 232, 249, 41, 130, 123, 247, 109, 59, 232, 156, 30, 21, 245, 83, 176, 100]

def c5Qx : Nat := 31855367722742370537280679280108010854876607759940877706949385967087672770343

def c5Qy : Nat := 46659058944867745027460438812818578793297503278458148978085384795486842595210

def c5Nbytes : List Nat :=
  [3, 222, 253, 234, 76, 219, 103, 119, 80, 164, 32, 254, 232, 7, 234, 207, 33, 235, 152, 152, 174, 121, 185, 118, 135, 102, 228, 250, 160, 74, 45, 74, 52]

def c5Sig : List Nat :=
  [47, 139, 222, 77, 26, 7, 32, 147, 85, 180, 167, 37, 10, 92, 81, 40, 232, 139, 132, 189, 220, 97, 154, 183, 203, 168, 213, 105, 178, 64, 239, 228, 171, 228, 129, 31, 14, 199, 242, 85, 234, 190, 17, 177, 211, 217, 143, 171, 245, 93, 29, 176, 14, 1, 178, 145, 248, 186, 231, 126, 41, 56, 223, 164]

def c5AmountStr : List Nat :=
  [49, 48, 48, 48]


def c1Params : Params :=
  { Enabled := true
    AllowedDenoms := [ulightStr]
    MinShieldAmounts := []
    MaxDepositsPerTx := 16
    MaxMemoSize := 512
    Phase := phase1Str }

def c1Deposit : PrivateDeposit :=
  { Denom := ulightStr
    Index := 0
    Commitment := ⟨zeroTypesPoint⟩
    OneTimeAddress := ⟨⟨natToBytesBE 32 c1Qx, natToBytesBE 32 c1Qy⟩, zeroTypesPoint⟩
    EncryptedNote := ⟨[1], List.replicate 12 0, zeroTypesPoint⟩
    Nullifier := none
    CreatedAtHeight := 1
    TxHash := [] }

def c1State : ChainState :=
  { params := c1Params
    deposits := [((ulightStr, 0), c1Deposit)]
    nextIndex := [(ulightStr, 1)]
    nullifiers := []
    bank := [] }

def c1Ctx : Ctx := ⟨2, []⟩

/-- A transfer output whose points are structurally valid (32-byte
coordinates) but otherwise arbitrary — `validateECPoint` checks nothing
else. -/
def dummyOutput : TransferOutput :=
  { Denom := ulightStr
    OneTimeAddress := ⟨zeroTypesPoint, zeroTypesPoint⟩
    Commitment := ⟨zeroTypesPoint⟩
    EncryptedNote := ⟨[1], List.replicate 12 0, zeroTypesPoint⟩ }

def c1Msg1 : MsgPrivateTransfer :=
  { Denom := ulightStr
    Inputs := [⟨0, c1N1bytes, c1Sig1⟩]
    Outputs := [dummyOutput]
    BalanceCommitment := ⟨zeroTypesPoint⟩
    ZkProof := [] }

def c1Msg2 : MsgPrivateTransfer :=
  { Denom := ulightStr
    Inputs := [⟨0, c1N2bytes, c1Sig2⟩]
    Outputs := [dummyOutput]
    BalanceCommitment := ⟨zeroTypesPoint⟩
    ZkProof := [] }


/-- The state after the first spend of deposit `(ulight, 0)`. -/
def c1Mid : ChainState × List Nat :=
  (PrivateTransfer c1State c1Ctx c1Msg1).getD (c1State, [])


def c5Params : Params := c1Params

def c5Deposit : PrivateDeposit :=
  { Denom := ulightStr
    Index := 0
    Commitment := ⟨zeroTypesPoint⟩
    OneTimeAddress := ⟨⟨natToBytesBE 32 c5Qx, natToBytesBE 32 c5Qy⟩, zeroTypesPoint⟩
    EncryptedNote := ⟨[1], List.replicate 12 0, zeroTypesPoint⟩
    Nullifier := none
    CreatedAtHeight := 1
    TxHash := [] }

def c5State : ChainState :=
  { params := c5Params
    deposits := [((ulightStr, 0), c5Deposit)]
    nextIndex := [(ulightStr, 1)]
    nullifiers := []
    bank := [] }

def c5Msg : MsgUnshield :=
  { Recipient := hikariAddrStr
    Denom := ulightStr
    Amount := c5AmountStr
    Nullifier := c5Nbytes
    Commitment := ⟨zeroTypesPoint⟩
    DepositIndex := 0
    Signature := c5Sig
    ZkProof := [] }


/-- The off-curve (yet 32-byte-encoded) point `(1, 1)` of the C2 instance. -/
def c2BadPoint : TypesECPoint := ⟨natToBytesBE 32 1, natToBytesBE 32 1⟩

def c2Msg : MsgShield :=
  { Sender := hikariAddrStr
    Amount := ⟨ulightStr, 5⟩
    OneTimeAddress := ⟨c2BadPoint, c2BadPoint⟩
    Commitment := ⟨c2BadPoint⟩
    EncryptedNote := ⟨[1], List.replicate 12 0, c2BadPoint⟩ }

/-- A bank holding five `ulight` for the C2 sender. -/
def c2State : ChainState :=
  { params := c1Params
    deposits := []
    nextIndex := []
    nullifiers := []
    bank := [((AccAddressFromBech32 hikariAddrStr |>.getD [], ulightStr), 5)] }


/-! ## Store lemmas -/

theorem kvGet_kvSet_eq {α β : Type} [DecidableEq α] (l : List (α × β)) (k : α) (v : β) :
    kvGet (kvSet l k v) k = some v := by
  induction l with
  | nil => simp [kvGet, kvSet]
  | cons kv rest ih =>
    by_cases h : k = kv.1
    · simp [kvSet, h, kvGet]
    · simp only [kvSet]
      rw [if_neg fun hh => h hh]
      simp only [kvGet]
      rw [if_neg h]
      exact ih

theorem kvGet_kvSet_ne {α β : Type} [DecidableEq α] (l : List (α × β)) (k k' : α) (v : β)
    (h : k' ≠ k) : kvGet (kvSet l k v) k' = kvGet l k' := by
  induction l with
  | nil => simp [kvGet, kvSet, if_neg h]
  | cons kv rest ih =>
    by_cases hk : k = kv.1
    · subst hk
      simp only [kvSet, if_pos rfl, kvGet]
      rw [if_neg h, if_neg h]
    · simp only [kvSet]
      rw [if_neg fun hh => hk hh]
      simp only [kvGet]
      by_cases h2 : k' = kv.1
      · rw [if_pos h2, if_pos h2]
      · rw [if_neg h2, if_neg h2]
        exact ih

/-! ## Claim C1 -/

/-- The state after the second spend of deposit `(ulight, 0)`. -/
def c1Final : ChainState × List Nat :=
  (PrivateTransfer c1Mid.1 c1Ctx c1Msg2).getD (c1State, [])

/-- C1: the spec says a deposit's `Unspent → Spent` transition is terminal
and a deposit is mutated exactly once; the code keys its double-spend guard
only on the nullifier bytes and never reads the deposit's `Nullifier`
field, so the same deposit `(ulight, 0)` is consumed by two successive
`PrivateTransfer`s under two different nullifier values, and its
`Nullifier` field is mutated twice. This refutes the claim. -/
theorem C1_deposit_consumed_twice :
    PrivateTransfer c1State c1Ctx c1Msg1 = some c1Mid ∧
    PrivateTransfer c1Mid.1 c1Ctx c1Msg2 = some c1Final ∧
    (∀ inp ∈ c1Msg1.Inputs, inp.DepositIndex = 0) ∧
    (∀ inp ∈ c1Msg2.Inputs, inp.DepositIndex = 0) ∧
    c1Msg1.Denom = ulightStr ∧ c1Msg2.Denom = ulightStr ∧
    c1N1bytes ≠ c1N2bytes ∧
    (GetDeposit c1Mid.1 ulightStr 0).map PrivateDeposit.Nullifier = some (some c1N1bytes) ∧
    (GetDeposit c1Final.1 ulightStr 0).map PrivateDeposit.Nullifier = some (some c1N2bytes) := by
  decide

/-! ## Claim C2 -/

/-- C2: the spec requires every deserialized point to be on the curve and
not the identity before use; `validateECPoint` checks only the 32-byte
coordinate lengths, so the off-curve point `(1, 1)` passes the structural
validation and `Shield` succeeds, storing it as the deposit's commitment —
while the keeper's own (uncalled) `ValidateECPointOnCurve` rejects it. This
refutes the claim. -/
theorem C2_offcurve_point_accepted :
    validateECPoint c2BadPoint = true ∧
    IsOnCurveP (convertToECPoint c2BadPoint) = false ∧
    ValidateECPointOnCurve c2BadPoint = false ∧
    c2Msg.Commitment.Commitment = c2BadPoint ∧
    (Shield c2State c1Ctx c2Msg).isSome = true ∧
    ((Shield c2State c1Ctx c2Msg).map fun p =>
      (GetDeposit p.1 ulightStr 0).map PrivateDeposit.Commitment) =
        some (some ⟨c2BadPoint⟩) := by
  decide

/-! ## Claim C4 -/

/-- C4: an invocation of `Shield`, `PrivateTransfer` or `Unshield` that
returns an error leaves the delivered ledger state — deposits,
used-nullifier set, next-index counters and bank balances — exactly as it
was before the invocation. (The rollback is the cosmos-sdk cache-context:
see `deliverShield`.) -/
theorem C4_failed_ops_change_nothing (st : ChainState) (ctx : Ctx)
    (msgS : MsgShield) (msgT : MsgPrivateTransfer) (msgU : MsgUnshield)
    (hS : Shield st ctx msgS = none)
    (hT : PrivateTransfer st ctx msgT = none)
    (hU : Unshield st ctx msgU = none) :
    deliverShield st ctx msgS = st ∧
    deliverPrivateTransfer st ctx msgT = st ∧
    deliverUnshield st ctx msgU = st ∧
    (deliverShield st ctx msgS).deposits = st.deposits ∧
    (deliverPrivateTransfer st ctx msgT).nullifiers = st.nullifiers ∧
    (deliverUnshield st ctx msgU).nextIndex = st.nextIndex ∧
    (deliverUnshield st ctx msgU).bank = st.bank := by
  have h1 : deliverShield st ctx msgS = st := by rw [deliverShield, hS]
  have h2 : deliverPrivateTransfer st ctx msgT = st := by rw [deliverPrivateTransfer, hT]
  have h3 : deliverUnshield st ctx msgU = st := by rw [deliverUnshield, hU]
  exact ⟨h1, h2, h3, by rw [h1], by rw [h2], by rw [h3], by rw [h3]⟩

/-- A module-disabled state: every handler fails on it. -/
def c4State : ChainState :=
  { params :=
      { Enabled := false
        AllowedDenoms := [ulightStr]
        MinShieldAmounts := []
        MaxDepositsPerTx := 16
        MaxMemoSize := 512
        Phase := phase1Str }
    deposits := []
    nextIndex := []
    nullifiers := []
    bank := [] }

def c4MsgShield : MsgShield :=
  { Sender := hikariAddrStr
    Amount := ⟨ulightStr, 5⟩
    OneTimeAddress := ⟨zeroTypesPoint, zeroTypesPoint⟩
    Commitment := ⟨zeroTypesPoint⟩
    EncryptedNote := ⟨[1], List.replicate 12 0, zeroTypesPoint⟩ }

def c4MsgUnshield : MsgUnshield :=
  { Recipient := hikariAddrStr
    Denom := ulightStr
    Amount := c5AmountStr
    Nullifier := [1]
    Commitment := ⟨zeroTypesPoint⟩
    DepositIndex := 0
    Signature := List.replicate 64 0
    ZkProof := [] }

theorem C4_failed_ops_change_nothing_witness :
    deliverShield c4State c1Ctx c4MsgShield = c4State ∧
    deliverPrivateTransfer c4State c1Ctx c1Msg1 = c4State ∧
    deliverUnshield c4State c1Ctx c4MsgUnshield = c4State ∧
    (deliverShield c4State c1Ctx c4MsgShield).deposits = c4State.deposits ∧
    (deliverPrivateTransfer c4State c1Ctx c1Msg1).nullifiers = c4State.nullifiers ∧
    (deliverUnshield c4State c1Ctx c4MsgUnshield).nextIndex = c4State.nextIndex ∧
    (deliverUnshield c4State c1Ctx c4MsgUnshield).bank = c4State.bank :=
  C4_failed_ops_change_nothing c4State c1Ctx c4MsgShield c1Msg1 c4MsgUnshield
    (by decide) (by decide) (by decide)

/-! ## Claim C7 -/

/-- The Pedersen generator `H` is a valid curve point. -/
theorem validPt_H : ValidPt HPoint :=
  validPt_of_checks HPoint (by decide)

/-- C7: the Pedersen commitments are homomorphic —
`CreateCommitment(a, r1) + CreateCommitment(b, r2)` equals
`CreateCommitment(a + b, r1 + r2 mod n)` as curve points, for 64-bit
amounts with representable sum and blinding scalars below the group
order. -/
theorem C7_commitment_homomorphism (a b r1 r2 : Nat)
    (ha : a < 2 ^ 64) (hb : b < 2 ^ 64) (hab : a + b < 2 ^ 64)
    (h1 : r1 < secpN) (h2 : r2 < secpN) :
    Commitment.Equal
      (Commitment.Add (some (CreateCommitment a r1)) (some (CreateCommitment b r2)))
      (some (CreateCommitment (a + b) ((r1 + r2) % secpN))) = true := by
  obtain ⟨Ah, hAh⟩ := validPt_H
  have hpow : (2 : Nat) ^ 64 < 2 ^ 256 := by norm_num
  have ha' : a < 2 ^ 256 := lt_trans ha hpow
  have hb' : b < 2 ^ 256 := lt_trans hb hpow
  have hab' : a + b < 2 ^ 256 := lt_trans hab hpow
  have h1' : r1 < 2 ^ 256 := lt_trans h1 secpN_lt_pow
  have h2' : r2 < 2 ^ 256 := lt_trans h2 secpN_lt_pow
  have hm : (r1 + r2) % secpN < 2 ^ 256 :=
    lt_trans (Nat.mod_lt _ (by norm_num [secpN])) secpN_lt_pow
  simp only [CreateCommitment, Commitment.Add, Commitment.Equal, ScalarMultP, PointAdd, ptEqual]
  rw [decide_eq_true_eq]
  rw [← hAh, ← rep_ptG,
    ScalarMult_rep a Ah ha', ScalarMult_rep b Ah hb', ScalarMult_rep (a + b) Ah hab',
    ScalarMult_rep r1 ptG h1', ScalarMult_rep r2 ptG h2',
    ScalarMult_rep ((r1 + r2) % secpN) ptG hm,
    rep_add, rep_add, rep_add, rep_add]
  congr 1
  rw [nsmul_mod_order (r1 + r2) ptG nsmul_order_ptG, add_nsmul, add_nsmul]
  abel

theorem C7_commitment_homomorphism_witness :
    2 < 2 ^ 64 ∧ 3 < 2 ^ 64 ∧ 2 + 3 < 2 ^ 64 ∧ 5 < secpN ∧ 7 < secpN ∧
    Commitment.Equal
      (Commitment.Add (some (CreateCommitment 2 5)) (some (CreateCommitment 3 7)))
      (some (CreateCommitment (2 + 3) ((5 + 7) % secpN))) = true :=
  ⟨by norm_num, by norm_num, by norm_num, by norm_num [secpN], by norm_num [secpN],
   C7_commitment_homomorphism 2 3 5 7 (by norm_num) (by norm_num) (by norm_num)
     (by norm_num [secpN]) (by norm_num [secpN])⟩

/-! ## Claim C9 -/

theorem HashToScalar_lt (data : List Nat) : HashToScalar data < secpN :=
  Nat.mod_lt _ (by norm_num [secpN])

theorem ScalarMult_base_comm (v r : Nat) (hv : v < 2 ^ 256) (hr : r < 2 ^ 256) :
    ScalarMult v (ScalarBaseMult r) = ScalarMult r (ScalarBaseMult v) := by
  rw [ScalarBaseMult_rep r hr, ScalarMult_rep v _ hv,
    ScalarBaseMult_rep v hv, ScalarMult_rep r _ hr]
  congr 1
  rw [← mul_smul, ← mul_smul, Nat.mul_comm]

/-- `ScalarBaseMult` turns scalar addition mod `n` into point addition. -/
theorem ScalarBaseMult_add_mod (x y : Nat) (hx : x < 2 ^ 256) (hy : y < 2 ^ 256) :
    ScalarBaseMult ((x + y) % secpN) = pointAdd (ScalarBaseMult x) (ScalarBaseMult y) := by
  have hm : (x + y) % secpN < 2 ^ 256 :=
    lt_trans (Nat.mod_lt _ (by norm_num [secpN])) secpN_lt_pow
  rw [ScalarBaseMult_rep _ hm, ScalarBaseMult_rep x hx, ScalarBaseMult_rep y hy, rep_add]
  congr 1
  rw [nsmul_mod_order (x + y) ptG nsmul_order_ptG, add_nsmul]

/-- C9: the stealth-address round trip — for key pairs `(v, v·G)`,
`(s, s·G)` and sender randomness `r` in `[1, n−1]`,
`GenerateStealthAddress` followed by `CheckIfMine` with the matching
private keys returns `(true, x)` with `x = Hs(shared) + s mod n`, and the
recovered one-time private key satisfies `x·G =` the published one-time
address. -/
theorem C9_stealth_roundtrip (v s r : Nat)
    (hv1 : 1 ≤ v) (hv2 : v < secpN) (hs1 : 1 ≤ s) (hs2 : s < secpN)
    (hr1 : 1 ≤ r) (hr2 : r < secpN) :
    CheckIfMine (GenerateStealthAddress r (ScalarBaseMult v) (ScalarBaseMult s)).1
        (GenerateStealthAddress r (ScalarBaseMult v) (ScalarBaseMult s)).2.1
        v (ScalarBaseMult s) s
      = (true, some ((HashToScalar
          (GenerateStealthAddress r (ScalarBaseMult v) (ScalarBaseMult s)).2.2 + s) % secpN)) ∧
    ScalarBaseMult ((HashToScalar
        (GenerateStealthAddress r (ScalarBaseMult v) (ScalarBaseMult s)).2.2 + s) % secpN)
      = (GenerateStealthAddress r (ScalarBaseMult v) (ScalarBaseMult s)).1 := by
  have hv' : v < 2 ^ 256 := lt_trans hv2 secpN_lt_pow
  have hr' : r < 2 ^ 256 := lt_trans hr2 secpN_lt_pow
  have hs' : s < 2 ^ 256 := lt_trans hs2 secpN_lt_pow
  have hcomm : ScalarMult v (ScalarBaseMult r) = ScalarMult r (ScalarBaseMult v) :=
    ScalarMult_base_comm v r hv' hr'
  have e22 : (GenerateStealthAddress r (ScalarBaseMult v) (ScalarBaseMult s)).2.2 =
      Hash256 (ECPointBytes (ScalarMult r (ScalarBaseMult v))) := rfl
  have e21 : (GenerateStealthAddress r (ScalarBaseMult v) (ScalarBaseMult s)).2.1 =
      ScalarBaseMult r := rfl
  have e1 : (GenerateStealthAddress r (ScalarBaseMult v) (ScalarBaseMult s)).1 =
      pointAdd (ScalarBaseMult (HashToScalar
        (Hash256 (ECPointBytes (ScalarMult r (ScalarBaseMult v)))))) (ScalarBaseMult s) := by
    simp only [GenerateStealthAddress]
  have hmine : CheckIfMine
      (pointAdd (ScalarBaseMult (HashToScalar
        (Hash256 (ECPointBytes (ScalarMult r (ScalarBaseMult v)))))) (ScalarBaseMult s))
      (ScalarBaseMult r) v (ScalarBaseMult s) s =
      (true, some ((HashToScalar
        (Hash256 (ECPointBytes (ScalarMult r (ScalarBaseMult v)))) + s) % secpN)) := by
    simp only [CheckIfMine]
    rw [hcomm, if_pos rfl]
  constructor
  · rw [e1, e21, hmine, e22]
  · rw [e22, e1, ScalarBaseMult_add_mod _ s (lt_trans (HashToScalar_lt _) secpN_lt_pow) hs']

theorem C9_stealth_roundtrip_witness :
    CheckIfMine (GenerateStealthAddress 7 (ScalarBaseMult 3) (ScalarBaseMult 5)).1
        (GenerateStealthAddress 7 (ScalarBaseMult 3) (ScalarBaseMult 5)).2.1
        3 (ScalarBaseMult 5) 5
      = (true, some ((HashToScalar
          (GenerateStealthAddress 7 (ScalarBaseMult 3) (ScalarBaseMult 5)).2.2 + 5) % secpN)) ∧
    ScalarBaseMult ((HashToScalar
        (GenerateStealthAddress 7 (ScalarBaseMult 3) (ScalarBaseMult 5)).2.2 + 5) % secpN)
      = (GenerateStealthAddress 7 (ScalarBaseMult 3) (ScalarBaseMult 5)).1 :=
  C9_stealth_roundtrip 3 5 7 (by norm_num) (by norm_num [secpN]) (by norm_num)
    (by norm_num [secpN]) (by norm_num) (by norm_num [secpN])

/-! ## Claim C8 -/

/-- The `VerifyCommitmentBalance` summation loop over valid points computes
the group sum. -/
theorem sumCommitments_rep (C : secpW.Point) (l : List secpW.Point) :
    sumCommitments (some ⟨some (rep C)⟩) (l.map fun B => some ⟨some (rep B)⟩) =
      some ⟨some (rep (l.foldl (· + ·) C))⟩ := by
  induction l generalizing C with
  | nil => rfl
  | cons B rest ih =>
    simp only [List.map, sumCommitments, Commitment.Add, PointAdd, List.foldl]
    rw [rep_add]
    exact ih (C + B)

/-- C8 (corrected): `VerifyCommitmentBalance` returns true exactly when the
input commitment point equals the left-to-right sum of the output
commitment points — stated for points of the curve group, where the byte
sum is the group sum. The original claim's clause that every
single-coordinate perturbation of an output flips the result to false is
refuted by `C8_perturbed_output_accepted`. -/
theorem C8_balance_iff_group_sum (A B0 : secpW.Point) (rest : List secpW.Point) :
    VerifyCommitmentBalance (some ⟨some (rep A)⟩)
      ((B0 :: rest).map fun B => some ⟨some (rep B)⟩) = true
    ↔ A = rest.foldl (· + ·) B0 := by
  simp only [VerifyCommitmentBalance, List.map]
  rw [sumCommitments_rep]
  simp only [Commitment.Equal, ptEqual]
  rw [decide_eq_true_eq]
  exact ⟨fun h => rep_inj h, fun h => by rw [h]⟩

theorem C8_balance_iff_group_sum_witness :
    VerifyCommitmentBalance (some ⟨some (rep ptG)⟩)
      ((ptG :: ([] : List secpW.Point)).map fun B => some ⟨some (rep B)⟩) = true
    ↔ ptG = ([] : List secpW.Point).foldl (· + ·) ptG :=
  C8_balance_iff_group_sum ptG ptG []

/-- The input `−G` of the C8 counterexample. -/
def c8In : GoPoint :=
  ⟨55066263022277343669578718895168534326250603453777594175500187360389116729240,
   83121579216557378445487899878180864668798711284981320763518679672151497189239⟩

/-- The output `−2G` of the C8 counterexample. -/
def c8Out1 : GoPoint :=
  ⟨89565891926547004231252920425935692360644145829622209833684329913297188986597,
   103633689937622365100603176395974509217114616778598935862658712053120463017733⟩

/-- `c8Out1` with only its Y coordinate changed (to `2·y(G) − y(−2G) mod p`,
which is off the curve yet leaves the computed chord sum `G + · = −G`
unchanged). -/
def c8Out1p : GoPoint :=
  ⟨89565891926547004231252920425935692360644145829622209833684329913297188986597,
   77499419341211464279133978873727485005097914648360114728676680626303046618778⟩

/-- C8 counterexample: a balanced instance (`−G = G + (−2G)`, all points on
the curve) stays accepted after a single-coordinate perturbation of the
second output's Y coordinate, refuting "returns false whenever any single
coordinate of any output is perturbed". -/
theorem C8_perturbed_output_accepted :
    VerifyCommitmentBalance (some ⟨some c8In⟩)
      [some ⟨some secpG⟩, some ⟨some c8Out1⟩] = true ∧
    VerifyCommitmentBalance (some ⟨some c8In⟩)
      [some ⟨some secpG⟩, some ⟨some c8Out1p⟩] = true ∧
    c8Out1p.x = c8Out1.x ∧
    c8Out1p.y ≠ c8Out1.y ∧
    goIsOnCurve c8In = true ∧ goIsOnCurve secpG = true ∧
    goIsOnCurve c8Out1 = true ∧ goIsOnCurve c8Out1p = false := by
  decide

/-! ## Claim C10 -/

theorem secpP_pos : 0 < secpP := by norm_num [secpP]

theorem bytesToNat_shift (acc : Nat) (l : List Nat) :
    List.foldl (fun a b => a * 256 + b) acc l = acc * 256 ^ l.length + bytesToNat l := by
  induction l generalizing acc with
  | nil => simp [bytesToNat]
  | cons b rest ih =>
    have h1 : bytesToNat (b :: rest) = List.foldl (fun a c => a * 256 + c) b rest := by
      simp [bytesToNat]
    simp only [List.foldl, List.length_cons]
    rw [ih (acc * 256 + b), h1, ih b]
    ring

theorem bytesToNat_append (l1 l2 : List Nat) :
    bytesToNat (l1 ++ l2) = bytesToNat l1 * 256 ^ l2.length + bytesToNat l2 := by
  simp only [bytesToNat, List.foldl_append]
  exact bytesToNat_shift _ l2

theorem bytesToNat_replicate_zero (k : Nat) : bytesToNat (List.replicate k 0) = 0 := by
  induction k with
  | zero => rfl
  | succ n ih =>
    have h : bytesToNat (List.replicate (n + 1) 0) = bytesToNat (List.replicate n 0) := by
      simp [List.replicate_succ, bytesToNat]
    rw [h, ih]

theorem minBytesAux_correct : ∀ f v : Nat, v < 256 ^ f → bytesToNat (minBytesAux f v) = v := by
  intro f
  induction f with
  | zero =>
    intro v hv
    have : v = 0 := Nat.lt_one_iff.mp hv
    subst this
    rfl
  | succ n ih =>
    intro v hv
    by_cases h0 : v = 0
    · subst h0; simp [minBytesAux, bytesToNat]
    · simp only [minBytesAux, if_neg h0]
      rw [bytesToNat_append]
      have hdiv : v / 256 < 256 ^ n := by
        rw [Nat.div_lt_iff_lt_mul (by norm_num)]
        calc v < 256 ^ (n + 1) := hv
        _ = 256 ^ n * 256 := by ring
      rw [ih _ hdiv]
      have hone : bytesToNat [v % 256] = v % 256 := by simp [bytesToNat]
      simp only [List.length_cons, List.length_nil, hone, pow_one]
      omega

theorem minBytesAux_length : ∀ f v m : Nat, v < 256 ^ m → (minBytesAux f v).length ≤ m := by
  intro f
  induction f with
  | zero => intro v m _; simp [minBytesAux]
  | succ n ih =>
    intro v m hv
    by_cases h0 : v = 0
    · subst h0; simp [minBytesAux]
    · simp only [minBytesAux, if_neg h0, List.length_append, List.length_cons, List.length_nil]
      have hm : m ≠ 0 := by
        rintro rfl
        exact h0 (Nat.lt_one_iff.mp hv)
      obtain ⟨m', rfl⟩ := Nat.exists_eq_succ_of_ne_zero hm
      have hdiv : v / 256 < 256 ^ m' := by
        rw [Nat.div_lt_iff_lt_mul (by norm_num)]
        calc v < 256 ^ (m' + 1) := hv
        _ = 256 ^ m' * 256 := by ring
      have := ih (v / 256) m' hdiv
      omega

/-- `big.Int.ModSqrt` on a value that is a square: it returns a root, below
the prime, equal to `±y` in the field. -/
theorem modSqrt_sq (py : Nat) (hy : py < secpP) :
    ∃ z, modSqrt (py * py % secpP) = some z ∧ z < secpP ∧
      ((z : Fp) = (py : Fp) ∨ (z : Fp) = -(py : Fp)) := by
  have he : (secpP + 1) / 4 < 2 ^ 256 := by norm_num [secpP]
  have hz := powMod_correct (py * py % secpP) ((secpP + 1) / 4) secpP he
  set z := powMod (py * py % secpP) ((secpP + 1) / 4) secpP with hzdef
  have hzlt : z < secpP := powMod_lt _ _ _ secpP_pos
  have hzcast : (z : Fp) = ((py : Fp) * (py : Fp)) ^ ((secpP + 1) / 4) := by
    rw [hz]
    push_cast [ZMod.natCast_mod]
    rfl
  have hsq : (z : Fp) ^ 2 = ((py : Fp)) ^ 2 := by
    rw [hzcast, ← pow_two ((py : Fp)), ← pow_mul, ← pow_mul]
    by_cases hy0 : (py : Fp) = 0
    · rw [hy0]
      rw [zero_pow (by norm_num [secpP]), zero_pow (by norm_num)]
    · have hfer := ZMod.pow_card_sub_one_eq_one hy0
      rw [show 2 * ((secpP + 1) / 4 * 2) = (secpP - 1) + 2 by norm_num [secpP]]
      rw [pow_add, hfer, one_mul]
  have hfac : ((z : Fp) - py) * ((z : Fp) + py) = 0 := by linear_combination hsq
  have hor : (z : Fp) = (py : Fp) ∨ (z : Fp) = -(py : Fp) := by
    rcases mul_eq_zero.mp hfac with h | h
    · exact Or.inl (sub_eq_zero.mp h)
    · exact Or.inr (eq_neg_of_add_eq_zero_left h)
  have hy2lt : py * py % secpP < secpP := Nat.mod_lt _ secpP_pos
  have hguard : z * z % secpP = py * py % secpP % secpP := by
    rw [Nat.mod_mod_of_dvd _ dvd_rfl]
    apply (natCast_inj_lt (Nat.mod_lt _ secpP_pos) hy2lt).mp
    push_cast [ZMod.natCast_mod]
    calc (z : Fp) * z = (z : Fp) ^ 2 := by ring
    _ = ((py : Fp)) ^ 2 := hsq
    _ = (py : Fp) * py := by ring
  refine ⟨z, ?_, hzlt, hor⟩
  rw [modSqrt, ← hzdef, if_pos hguard]

/-- C10: point compression followed by decompression is the identity on
curve points with reduced coordinates (the claim's "coordinates present"
is built into the point representation; "not the identity" is the
`(0,0)` exclusion). -/
theorem C10_compress_roundtrip (P : GoPoint) (hx : P.x < secpP) (hy : P.y < secpP)
    (hc : goIsOnCurve P = true) (hP : P ≠ infPt) :
    DecompressPoint (Compressed P) = some P := by
  obtain ⟨px, py⟩ := P
  simp only at hx hy
  have hx256 : px < 256 ^ 32 := lt_trans hx (by norm_num [secpP])
  have hlen : (minBytes px).length ≤ 32 := minBytesAux_length 64 px 32 hx256
  have htlen : (List.replicate (32 - (minBytes px).length) 0 ++ minBytes px).length = 32 := by
    simp only [List.length_append, List.length_replicate]
    omega
  have htval : bytesToNat (List.replicate (32 - (minBytes px).length) 0 ++ minBytes px) = px := by
    rw [bytesToNat_append, bytesToNat_replicate_zero, zero_mul, zero_add]
    exact minBytesAux_correct 64 px (lt_trans hx256 (by norm_num))
  have hcurveN : py * py % secpP = (px * px % secpP * px + 7) % secpP :=
    of_decide_eq_true hc
  have hcurveF : ((py : Fp)) * py = (px : Fp) * px * px + 7 := by
    have := congrArg (fun n : Nat => (n : Fp)) hcurveN
    push_cast [ZMod.natCast_mod] at this
    exact this
  have hy2 : (px * px * px + 7) % secpP = py * py % secpP := by
    apply (natCast_inj_lt (Nat.mod_lt _ secpP_pos) (Nat.mod_lt _ secpP_pos)).mp
    push_cast [ZMod.natCast_mod]
    linear_combination hcurveF.symm
  obtain ⟨z, hms, hzlt, hor⟩ := modSqrt_sq py hy
  have hpodd : secpP % 2 = 1 := by norm_num [secpP]
  -- the Nat value of the root
  have hzval : z = py ∨ (py ≠ 0 ∧ z = secpP - py) := by
    rcases hor with h | h
    · exact Or.inl ((natCast_inj_lt hzlt hy).mp h)
    · by_cases hy0 : py = 0
      · subst hy0
        left
        apply (natCast_inj_lt hzlt hy).mp
        rw [h]
        push_cast
        ring
      · right
        refine ⟨hy0, (natCast_inj_lt hzlt (by omega)).mp ?_⟩
        rw [h]
        push_cast [Nat.cast_sub (le_of_lt hy)]
        rw [ZMod.natCast_self]
        ring
  simp only [Compressed, DecompressPoint, List.length_cons, htlen, List.drop_succ_cons,
    List.drop_zero, List.headD_cons, htval, hy2, hms]
  rw [if_neg (by omega)]
  by_cases hpar : py % 2 = 0
  · rw [if_pos hpar]
    rcases hzval with rfl | ⟨hy0, rfl⟩
    · rw [if_pos rfl, if_neg (by omega)]
    · rw [if_pos rfl, if_pos (by omega)]
      congr 2
      omega
  · rw [if_neg hpar]
    rcases hzval with rfl | ⟨hy0, rfl⟩
    · rw [if_neg (by simp), if_pos rfl, if_neg (by omega)]
    · rw [if_neg (by simp), if_pos rfl, if_pos (by omega)]
      congr 2
      omega

theorem C10_compress_roundtrip_witness :
    DecompressPoint (Compressed secpG) = some secpG :=
  C10_compress_roundtrip secpG (by decide) (by decide) (by decide) (by decide)

/-! ## Claim C3 -/

/-- What one accepted `PrivateTransfer` input does to the used-nullifier
store: it adds exactly its own (previously unused, non-empty) nullifier. -/
theorem processInput_spec (ctx : Ctx) (params : Params) (denom : List Nat)
    (st st1 : ChainState) (input : TransferInput)
    (h : processInput ctx params denom st input = some st1) :
    st1.nullifiers = kvSet st.nullifiers input.Nullifier
      ⟨input.Nullifier, ctx.blockHeight, hexUpper ctx.txBytes, denom⟩ ∧
    IsNullifierUsed st input.Nullifier = false := by
  simp only [processInput] at h
  split at h
  · exact absurd h (by simp)
  split at h
  · exact absurd h (by simp)
  rename_i hlen hused
  split at h
  · exact absurd h (by simp)
  rename_i st1' heq
  injection h with h
  subst h
  have hnl : st1'.nullifiers = st.nullifiers := by
    split at heq
    · split at heq
      · exact absurd heq (by simp)
      split at heq
      · exact absurd heq (by simp)
      split at heq
      · exact absurd heq (by simp)
      injection heq with heq
      subst heq
      rfl
    · injection heq with heq
      subst heq
      rfl
  constructor
  · show (SetNullifierUsed st1' _).nullifiers = _
    rw [SetNullifierUsed, hnl]
  · simpa using hused

/-- The input loop only adds to the used-nullifier store; every processed
input's nullifier was unused on entry and is recorded on exit, and the
accepted nullifiers are pairwise distinct. -/
theorem processInputs_nullifiers (ctx : Ctx) (params : Params) (denom : List Nat) :
    ∀ (l : List TransferInput) (st st' : ChainState),
    processInputs ctx params denom st l = some st' →
    (∀ nb rec, kvGet st.nullifiers nb = some rec → kvGet st'.nullifiers nb = some rec) ∧
    (∀ inp ∈ l, IsNullifierUsed st' inp.Nullifier = true) ∧
    (∀ inp ∈ l, IsNullifierUsed st inp.Nullifier = false) ∧
    (l.map TransferInput.Nullifier).Nodup := by
  intro l
  induction l with
  | nil =>
    intro st st' h
    injection h with h
    subst h
    exact ⟨fun _ _ hh => hh, by simp, by simp, by simp⟩
  | cons input rest ih =>
    intro st st' h
    simp only [processInputs] at h
    split at h
    · exact absurd h (by simp)
    rename_i st1 heq
    obtain ⟨hset, hunused⟩ := processInput_spec ctx params denom st st1 input heq
    obtain ⟨ihPres, ihMarked, ihUnused, ihNodup⟩ := ih st1 st' h
    have hne : ∀ nb rec, kvGet st.nullifiers nb = some rec → nb ≠ input.Nullifier := by
      intro nb rec hrec hcontra
      subst hcontra
      rw [IsNullifierUsed, hrec] at hunused
      exact absurd hunused (by simp)
    have hpres : ∀ nb rec, kvGet st.nullifiers nb = some rec →
        kvGet st1.nullifiers nb = some rec := by
      intro nb rec hrec
      rw [hset, kvGet_kvSet_ne _ _ _ _ (hne nb rec hrec)]
      exact hrec
    have hmarked1 : IsNullifierUsed st1 input.Nullifier = true := by
      rw [IsNullifierUsed, hset, kvGet_kvSet_eq]
      rfl
    have hused1 : ∀ nb, IsNullifierUsed st nb = true → IsNullifierUsed st1 nb = true := by
      intro nb hnb
      rw [IsNullifierUsed, Option.isSome_iff_exists] at hnb
      obtain ⟨rec, hrec⟩ := hnb
      rw [IsNullifierUsed, hpres nb rec hrec]
      rfl
    refine ⟨fun nb rec hrec => ihPres nb rec (hpres nb rec hrec), ?_, ?_, ?_⟩
    · intro inp hm
      rcases List.mem_cons.mp hm with hh | hh
      · subst hh
        rw [IsNullifierUsed, Option.isSome_iff_exists] at hmarked1
        obtain ⟨rec, hrec⟩ := hmarked1
        rw [IsNullifierUsed, ihPres _ rec hrec]
        rfl
      · exact ihMarked inp hh
    · intro inp hm
      rcases List.mem_cons.mp hm with hh | hh
      · subst hh
        exact hunused
      · by_contra hc
        have : IsNullifierUsed st inp.Nullifier = true := by
          revert hc
          cases IsNullifierUsed st inp.Nullifier <;> simp
        exact absurd (ihUnused inp hh) (by rw [hused1 _ this]; simp)
    · simp only [List.map, List.nodup_cons]
      refine ⟨?_, ihNodup⟩
      intro hmem
      obtain ⟨inp, hm, heqn⟩ := List.mem_map.mp hmem
      have := ihUnused inp hm
      rw [heqn] at this
      rw [this] at hmarked1
      exact absurd hmarked1 (by simp)

/-- A single input whose nullifier is already used (or empty) is refused. -/
theorem processInput_reject (ctx : Ctx) (params : Params) (denom : List Nat)
    (st : ChainState) (input : TransferInput)
    (h : IsNullifierUsed st input.Nullifier = true) :
    processInput ctx params denom st input = none := by
  simp only [processInput]
  by_cases h0 : input.Nullifier.length = 0
  · rw [if_pos h0]
  · rw [if_neg h0, if_pos (by rw [CheckNullifierUsed]; exact h)]

/-- Accepted inputs keep previously used nullifiers used. -/
theorem processInput_keeps_used (ctx : Ctx) (params : Params) (denom : List Nat)
    (st st1 : ChainState) (input : TransferInput) (nb : List Nat)
    (h : processInput ctx params denom st input = some st1)
    (hu : IsNullifierUsed st nb = true) : IsNullifierUsed st1 nb = true := by
  obtain ⟨hset, _⟩ := processInput_spec ctx params denom st st1 input h
  rw [IsNullifierUsed, Option.isSome_iff_exists] at hu
  obtain ⟨rec, hrec⟩ := hu
  rw [IsNullifierUsed, hset]
  by_cases hb : nb = input.Nullifier
  · subst hb
    rw [kvGet_kvSet_eq]
    rfl
  · rw [kvGet_kvSet_ne _ _ _ _ hb, hrec]
    rfl

/-- The input loop refuses any list containing a used nullifier. -/
theorem processInputs_reject (ctx : Ctx) (params : Params) (denom : List Nat) :
    ∀ (l : List TransferInput) (st : ChainState) (inp : TransferInput),
    inp ∈ l → IsNullifierUsed st inp.Nullifier = true →
    processInputs ctx params denom st l = none := by
  intro l
  induction l with
  | nil => intro st inp hm; exact absurd hm (by simp)
  | cons i rest ih =>
    intro st inp hm hu
    simp only [processInputs]
    rcases List.mem_cons.mp hm with hh | hh
    · subst hh
      rw [processInput_reject ctx params denom st inp hu]
    · cases hpi : processInput ctx params denom st i with
      | none => rfl
      | some st1 =>
        exact ih st1 inp hh (processInput_keeps_used ctx params denom st st1 i _ hpi hu)

/-- The output loop never touches the used-nullifier store. -/
theorem processOutputs_nullifiers (ctx : Ctx) (denom : List Nat) :
    ∀ (l : List TransferOutput) (st : ChainState) (r : ChainState × List Nat),
    processOutputs ctx denom st l = some r → r.1.nullifiers = st.nullifiers := by
  intro l
  induction l with
  | nil =>
    intro st r h
    injection h with h
    subst h
    rfl
  | cons output rest ih =>
    intro st r h
    simp only [processOutputs, processOutput] at h
    split at h
    · exact absurd h (by simp)
    rename_i st1 idx heqPO
    split at h
    · exact absurd h (by simp)
    rename_i st2 idxs heq
    injection h with h
    subst h
    show st2.nullifiers = st.nullifiers
    rw [ih _ _ heq]
    split at heqPO
    · exact absurd heqPO (by simp)
    injection heqPO with hPO
    obtain ⟨h1, h2⟩ := Prod.mk.inj hPO
    rw [← h1]
    rfl

/-- `PrivateTransfer` refuses any message presenting a used nullifier. -/
theorem PrivateTransfer_used_reject (st : ChainState) (ctx : Ctx)
    (msg : MsgPrivateTransfer) (inp : TransferInput) (hm : inp ∈ msg.Inputs)
    (hu : IsNullifierUsed st inp.Nullifier = true) :
    PrivateTransfer st ctx msg = none := by
  have hrej := processInputs_reject ctx (GetParams st) msg.Denom msg.Inputs st inp hm hu
  simp only [PrivateTransfer, hrej]
  split
  · rfl
  split
  · rfl
  split
  · rfl
  split
  · rfl
  split
  · rfl
  split
  · rfl
  rfl

/-- `Unshield` refuses a used nullifier. -/
theorem Unshield_used_reject (st : ChainState) (ctx : Ctx) (msg : MsgUnshield)
    (hu : IsNullifierUsed st msg.Nullifier = true) :
    Unshield st ctx msg = none := by
  simp only [Unshield, CheckNullifierUsed, hu]
  split
  · rfl
  split
  · rfl
  split
  · rfl
  split
  · rfl
  split
  · rfl
  split
  · rfl
  rfl

/-- C3: the used-nullifier set only grows — a successful `PrivateTransfer`
keeps every existing record byte-for-byte, records each input's
nullifier, never accepts two inputs with the same nullifier bytes (each
input's check sees the writes of earlier inputs of the same message), and
afterwards any `PrivateTransfer` or `Unshield` presenting a recorded
nullifier is rejected. -/
theorem C3_nullifier_set_permanent (st : ChainState) (ctx : Ctx)
    (msg : MsgPrivateTransfer) (stR : ChainState × List Nat)
    (h : PrivateTransfer st ctx msg = some stR) :
    (∀ nb rec, kvGet st.nullifiers nb = some rec → kvGet stR.1.nullifiers nb = some rec) ∧
    (∀ inp ∈ msg.Inputs, IsNullifierUsed stR.1 inp.Nullifier = true) ∧
    (msg.Inputs.map TransferInput.Nullifier).Nodup ∧
    (∀ ctx2 msg2 inp, inp ∈ msg2.Inputs → IsNullifierUsed stR.1 inp.Nullifier = true →
      PrivateTransfer stR.1 ctx2 msg2 = none) ∧
    (∀ ctx2 msg2, IsNullifierUsed stR.1 msg2.Nullifier = true →
      Unshield stR.1 ctx2 msg2 = none) := by
  simp only [PrivateTransfer, GetParams] at h
  split at h
  · exact absurd h (by simp)
  split at h
  · exact absurd h (by simp)
  split at h
  · exact absurd h (by simp)
  split at h
  · exact absurd h (by simp)
  split at h
  · exact absurd h (by simp)
  split at h
  · exact absurd h (by simp)
  split at h
  · exact absurd h (by simp)
  rename_i st1 heqIn
  split at h
  · exact absurd h (by simp)
  split at h
  · exact absurd h (by simp)
  split at h
  · exact absurd h (by simp)
  rename_i st2 idxs heqOut
  injection h with h
  subst h
  obtain ⟨hPres, hMarked, _, hNodup⟩ :=
    processInputs_nullifiers ctx st.params msg.Denom msg.Inputs st st1 heqIn
  have hOut : st2.nullifiers = st1.nullifiers :=
    processOutputs_nullifiers ctx msg.Denom msg.Outputs st1 (st2, idxs) heqOut
  refine ⟨?_, ?_, hNodup, ?_, ?_⟩
  · intro nb rec hrec
    show kvGet st2.nullifiers nb = some rec
    rw [hOut]
    exact hPres nb rec hrec
  · intro inp hm
    show IsNullifierUsed st2 inp.Nullifier = true
    rw [IsNullifierUsed, hOut]
    exact hMarked inp hm
  · intro ctx2 msg2 inp hm hu
    exact PrivateTransfer_used_reject _ ctx2 msg2 inp hm hu
  · intro ctx2 msg2 hu
    exact Unshield_used_reject _ ctx2 msg2 hu

def c3Params : Params :=
  { Enabled := true
    AllowedDenoms := [ulightStr]
    MinShieldAmounts := []
    MaxDepositsPerTx := 16
    MaxMemoSize := 512
    Phase := phase2Str }

def c3State : ChainState :=
  { params := c3Params
    deposits := []
    nextIndex := []
    nullifiers := []
    bank := [] }

def c3Msg : MsgPrivateTransfer :=
  { Denom := ulightStr
    Inputs := [⟨0, [1], []⟩, ⟨0, [2], []⟩]
    Outputs := [dummyOutput]
    BalanceCommitment := ⟨zeroTypesPoint⟩
    ZkProof := [1] }

def c3Post : ChainState × List Nat :=
  (PrivateTransfer c3State c1Ctx c3Msg).getD (c3State, [])

theorem C3_nullifier_set_permanent_witness :
    (∀ nb rec, kvGet c3State.nullifiers nb = some rec →
      kvGet c3Post.1.nullifiers nb = some rec) ∧
    (∀ inp ∈ c3Msg.Inputs, IsNullifierUsed c3Post.1 inp.Nullifier = true) ∧
    (c3Msg.Inputs.map TransferInput.Nullifier).Nodup ∧
    (∀ ctx2 msg2 inp, inp ∈ msg2.Inputs → IsNullifierUsed c3Post.1 inp.Nullifier = true →
      PrivateTransfer c3Post.1 ctx2 msg2 = none) ∧
    (∀ ctx2 msg2, IsNullifierUsed c3Post.1 msg2.Nullifier = true →
      Unshield c3Post.1 ctx2 msg2 = none) :=
  C3_nullifier_set_permanent c3State c1Ctx c3Msg c3Post (by decide)

/-! ## Claim C5 -/

/-- A state with one deposit's stored commitment replaced (other
components untouched). -/
def updateDepositCommitment (st : ChainState) (denom : List Nat) (idx : Nat)
    (c' : TypesCommitment) : ChainState :=
  match kvGet st.deposits (denom, idx) with
  | none => st
  | some d =>
    { st with deposits := kvSet st.deposits (denom, idx) ({ d with Commitment := c' }) }

theorem bankGet_bankSet_eq (B : List ((List Nat × List Nat) × Int)) (ad d : List Nat) (v : Int) :
    bankGet (bankSet B ad d v) ad d = v := by
  rw [bankGet, bankSet, kvGet_kvSet_eq]
  rfl

theorem bankGet_bankSet_ne (B : List ((List Nat × List Nat) × Int)) (ad d ad' d' : List Nat)
    (v : Int) (hne : (ad', d') ≠ (ad, d)) :
    bankGet (bankSet B ad d v) ad' d' = bankGet B ad' d' := by
  rw [bankGet, bankSet, kvGet_kvSet_ne _ _ _ _ hne, bankGet]

/-- The keeper's unshield signature check reads only the deposit's
one-time address, so the stored commitment is irrelevant to it. -/
theorem keeperVerifyUnshieldSignature_commitment (d : PrivateDeposit) (c' : TypesCommitment)
    (n r a s : List Nat) :
    keeperVerifyUnshieldSignature ({ d with Commitment := c' }) n r a s =
      keeperVerifyUnshieldSignature d n r a s := rfl

/-- The two phase strings differ. -/
theorem phase12_ne : (phase1Str = phase2Str) = False := by
  simp [phase1Str, phase2Str]

/-- The two phase strings differ (reversed). -/
theorem phase21_ne : (phase2Str = phase1Str) = False := by
  simp [phase1Str, phase2Str]

/-- The tail of `Unshield` (nullifier marking, mint, send) produces the
same response from two states with the same bank. -/
theorem unshield_tail_map (stA stB : ChainState) (un : UsedNullifier)
    (recipient denom : List Nat) (amount : Int) (hb : stA.bank = stB.bank) :
    (match SendCoinsFromModuleToAccount (MintCoins (SetNullifierUsed stA un) denom amount)
        recipient denom amount with
      | none => (none : Option (ChainState × Coin))
      | some st4 => some (st4, Coin.mk denom amount)).map Prod.snd =
    (match SendCoinsFromModuleToAccount (MintCoins (SetNullifierUsed stB un) denom amount)
        recipient denom amount with
      | none => (none : Option (ChainState × Coin))
      | some st4 => some (st4, Coin.mk denom amount)).map Prod.snd := by
  have hbank : (MintCoins (SetNullifierUsed stA un) denom amount).bank =
      (MintCoins (SetNullifierUsed stB un) denom amount).bank := by
    simp only [MintCoins, SetNullifierUsed]
    rw [hb]
  cases hcase : sendCoins (MintCoins (SetNullifierUsed stB un) denom amount).bank
      moduleAddr recipient denom amount with
  | none =>
    have hA : sendCoins (MintCoins (SetNullifierUsed stA un) denom amount).bank
        moduleAddr recipient denom amount = none := by rw [hbank, hcase]
    simp [SendCoinsFromModuleToAccount, hA, hcase]
  | some b =>
    have hA : sendCoins (MintCoins (SetNullifierUsed stA un) denom amount).bank
        moduleAddr recipient denom amount = some b := by rw [hbank, hcase]
    simp [SendCoinsFromModuleToAccount, hA, hcase]

/-- `Unshield` never reads the referenced deposit's stored commitment: its
accept/reject outcome and its response are unchanged when that commitment
is replaced by anything. -/
theorem Unshield_commitment_invariant (st : ChainState) (ctx : Ctx) (msg : MsgUnshield)
    (c' : TypesCommitment) :
    (Unshield (updateDepositCommitment st msg.Denom msg.DepositIndex c') ctx msg).map Prod.snd =
      (Unshield st ctx msg).map Prod.snd := by
  cases hd : kvGet st.deposits (msg.Denom, msg.DepositIndex) with
  | none =>
    have heq : updateDepositCommitment st msg.Denom msg.DepositIndex c' = st := by
      rw [updateDepositCommitment, hd]
    rw [heq]
  | some d =>
    have hupd : updateDepositCommitment st msg.Denom msg.DepositIndex c' =
        { st with deposits := kvSet st.deposits (msg.Denom, msg.DepositIndex) ({ d with Commitment := c' }) } := by
      rw [updateDepositCommitment, hd]
    have hdep : kvGet (kvSet st.deposits (msg.Denom, msg.DepositIndex)
        ({ d with Commitment := c' })) (msg.Denom, msg.DepositIndex) =
        some ({ d with Commitment := c' }) := kvGet_kvSet_eq _ _ _
    rw [hupd]
    simp only [Unshield, GetParams, CheckNullifierUsed, IsNullifierUsed, GetDeposit,
      hdep, hd, keeperVerifyUnshieldSignature_commitment]
    by_cases hEn : st.params.Enabled = false
    · simp [hEn]
    cases hr : AccAddressFromBech32 msg.Recipient with
    | none => simp [hEn, hr]
    | some recipient =>
      by_cases hden : msg.Denom ∈ st.params.AllowedDenoms
      · cases hm : NewIntFromString msg.Amount with
        | none => simp [hEn, hr, hden, hm]
        | some amount =>
          by_cases hpos : amount ≤ 0
          · simp [hEn, hr, hden, hm, hpos]
          by_cases hnl : msg.Nullifier.length = 0
          · simp [hEn, hr, hden, hm, hpos, hnl]
          by_cases hck : (kvGet st.nullifiers msg.Nullifier).isSome = true
          · simp [hEn, hr, hden, hm, hpos, hnl, hck]
          by_cases hvc : validateECPoint msg.Commitment.Commitment = false
          · simp [hEn, hr, hden, hm, hpos, hnl, hck, hvc]
          by_cases hph : st.params.Phase = phase1Str
          · by_cases hsl : msg.Signature.length = 0
            · simp [hEn, hr, hden, hm, hpos, hnl, hck, hvc, hph, hsl]
            by_cases hsig : keeperVerifyUnshieldSignature d msg.Nullifier
                msg.Recipient msg.Amount msg.Signature = false
            · simp [hEn, hr, hden, hm, hpos, hnl, hck, hvc, hph, hsl, hsig]
            simp only [hEn, hr, hden, hm, hpos, hnl, hck, hvc, hph, hsl, hsig, phase12_ne,
              not_false_iff, ite_true, ite_false, if_true, if_false, false_and,
              eq_self_iff_true, not_true]
            exact unshield_tail_map _ _ _ _ _ _ rfl
          · by_cases hzk : st.params.Phase = phase2Str ∧ msg.ZkProof.length = 0
            · simp [hEn, hr, hden, hm, hpos, hnl, hck, hvc, hph, hzk, phase21_ne]
            simp only [hEn, hr, hden, hm, hpos, hnl, hck, hvc, hph, hzk,
              not_false_iff, ite_true, ite_false, if_true, if_false, false_and,
              eq_self_iff_true, not_true]
            exact unshield_tail_map _ _ _ _ _ _ rfl
      · simp [hEn, hr, hden]

/-- C5: a successful `Unshield` mints exactly the amount parsed from the
message's amount string to the decoded recipient, and the referenced
deposit's stored commitment has no influence — the same message succeeds
with the same response whatever commitment is stored. -/
theorem C5_unshield_mints_requested_amount (st : ChainState) (ctx : Ctx) (msg : MsgUnshield)
    (stR : ChainState × Coin) (a : List Nat) (amt : Int)
    (h : Unshield st ctx msg = some stR)
    (ha : AccAddressFromBech32 msg.Recipient = some a)
    (hamt : NewIntFromString msg.Amount = some amt) :
    stR.2 = ⟨msg.Denom, amt⟩ ∧
    bankGet stR.1.bank a msg.Denom = bankGet st.bank a msg.Denom + amt ∧
    ∀ c', (Unshield (updateDepositCommitment st msg.Denom msg.DepositIndex c') ctx msg).map
        Prod.snd = some stR.2 := by
  have h0 := h
  simp only [Unshield, GetParams] at h
  split at h
  · exact absurd h (by simp)
  split at h
  · exact absurd h (by simp)
  rename_i recipient hrec
  split at h
  · exact absurd h (by simp)
  split at h
  · exact absurd h (by simp)
  rename_i amount hamt'
  split at h
  · exact absurd h (by simp)
  split at h
  · exact absurd h (by simp)
  split at h
  · exact absurd h (by simp)
  split at h
  · exact absurd h (by simp)
  split at h
  · exact absurd h (by simp)
  rename_i st1 heqP1
  split at h
  · exact absurd h (by simp)
  split at h
  · exact absurd h (by simp)
  rename_i st4 heqS
  injection h with h
  subst h
  rw [ha] at hrec
  injection hrec with hrec
  subst hrec
  rw [hamt] at hamt'
  injection hamt' with hamt'
  subst hamt'
  have hb1 : st1.bank = st.bank := by
    split at heqP1
    · split at heqP1
      · exact absurd heqP1 (by simp)
      split at heqP1
      · exact absurd heqP1 (by simp)
      split at heqP1
      · exact absurd heqP1 (by simp)
      injection heqP1 with hh
      subst hh
      rfl
    · injection heqP1 with hh
      subst hh
      rfl
  rw [SendCoinsFromModuleToAccount] at heqS
  obtain ⟨b, hsend, hst4⟩ := Option.map_eq_some'.mp heqS
  simp only [sendCoins] at hsend
  split at hsend
  · exact absurd hsend (by simp)
  injection hsend with hsend
  refine ⟨rfl, ?_, ?_⟩
  · show bankGet st4.bank a msg.Denom = _
    rw [← hst4]
    show bankGet b a msg.Denom = _
    rw [← hsend, bankGet_bankSet_eq]
    have hmb : (MintCoins (SetNullifierUsed st1
        ⟨msg.Nullifier, ctx.blockHeight, hexUpper ctx.txBytes, msg.Denom⟩)
          msg.Denom amt).bank =
        bankSet st.bank moduleAddr msg.Denom
          (bankGet st.bank moduleAddr msg.Denom + amt) := by
      simp only [MintCoins, SetNullifierUsed]
      rw [hb1]
    by_cases hmod : a = moduleAddr
    · subst hmod
      rw [bankGet_bankSet_eq, hmb, bankGet_bankSet_eq]
      ring
    · have hne : ((a, msg.Denom) : List Nat × List Nat) ≠ (moduleAddr, msg.Denom) := by
        intro hc
        exact hmod (congrArg Prod.fst hc)
      rw [bankGet_bankSet_ne _ _ _ _ _ _ hne, hmb, bankGet_bankSet_ne _ _ _ _ _ _ hne]
  · intro c'
    rw [Unshield_commitment_invariant, h0]
    rfl

def c5Post : ChainState × Coin :=
  (Unshield c5State c1Ctx c5Msg).getD (c5State, ⟨[], 0⟩)

def c5Addr : List Nat := (AccAddressFromBech32 hikariAddrStr).getD []

theorem C5_unshield_mints_requested_amount_witness :
    c5Post.2 = ⟨c5Msg.Denom, 1000⟩ ∧
    bankGet c5Post.1.bank c5Addr c5Msg.Denom =
      bankGet c5State.bank c5Addr c5Msg.Denom + 1000 ∧
    ∀ c', (Unshield (updateDepositCommitment c5State c5Msg.Denom c5Msg.DepositIndex c')
        c1Ctx c5Msg).map Prod.snd = some c5Post.2 :=
  C5_unshield_mints_requested_amount c5State c1Ctx c5Msg c5Post c5Addr 1000
    (by decide) (by decide) (by decide)

/-! ## C6: the transfer decision never reads the commitment points

`eraseCommitments`-style scrubbing: two states/messages that agree after
every commitment point is replaced by a fixed placeholder differ only in
those commitment points. `PrivateTransfer` reaches the same accept/reject
outcome on both, provided the points pass the structural length check
(`validateECPoint`), which is all the handler ever does with them. -/

def eraseCommitment (c : TypesCommitment) : TypesCommitment := ⟨zeroTypesPoint⟩

def eraseOutput (o : TransferOutput) : TransferOutput :=
  { o with Commitment := eraseCommitment o.Commitment }

def eraseDeposit (d : PrivateDeposit) : PrivateDeposit :=
  { d with Commitment := eraseCommitment d.Commitment }

def eraseState (st : ChainState) : ChainState :=
  { st with deposits := st.deposits.map (fun kv => (kv.1, eraseDeposit kv.2)) }

def eraseMsg (m : MsgPrivateTransfer) : MsgPrivateTransfer :=
  { m with Outputs := m.Outputs.map eraseOutput, BalanceCommitment := eraseCommitment m.BalanceCommitment }

theorem kvGet_map_erase (l : List ((List Nat × Nat) × PrivateDeposit)) (key : List Nat × Nat) :
    kvGet (l.map (fun kv => (kv.1, eraseDeposit kv.2))) key = (kvGet l key).map eraseDeposit := by
  induction l with
  | nil => rfl
  | cons kv rest ih =>
    obtain ⟨k, v⟩ := kv
    simp only [List.map_cons, kvGet]
    by_cases h : key = k
    · simp [h]
    · simp [h, ih]

theorem kvSet_map_erase (l : List ((List Nat × Nat) × PrivateDeposit)) (key : List Nat × Nat)
    (v : PrivateDeposit) :
    (kvSet l key v).map (fun kv => (kv.1, eraseDeposit kv.2)) =
      kvSet (l.map (fun kv => (kv.1, eraseDeposit kv.2))) key (eraseDeposit v) := by
  induction l with
  | nil => rfl
  | cons kv rest ih =>
    obtain ⟨k, w⟩ := kv
    simp only [List.map_cons, kvSet]
    by_cases h : key = k
    · simp [h]
    · simp [h, ih]

theorem eraseState_SetDeposit (st : ChainState) (d : PrivateDeposit) :
    eraseState (SetDeposit st d) =
      { eraseState st with deposits := kvSet (eraseState st).deposits (d.Denom, d.Index) (eraseDeposit d) } := by
  simp only [eraseState, SetDeposit]
  rw [kvSet_map_erase]

theorem eraseState_SetNullifierUsed (st : ChainState) (un : UsedNullifier) :
    eraseState (SetNullifierUsed st un) = SetNullifierUsed (eraseState st) un := rfl

theorem eraseState_SetNextDepositIndex (st : ChainState) (denom : List Nat) (i : Nat) :
    eraseState (SetNextDepositIndex st denom i) =
      { eraseState st with nextIndex := kvSet st.nextIndex denom i } := rfl

theorem eraseState_SetDeposit_congr (sA sB : ChainState) (dA dB : PrivateDeposit)
    (hs : eraseState sA = eraseState sB) (hd : eraseDeposit dA = eraseDeposit dB) :
    eraseState (SetDeposit sA dA) = eraseState (SetDeposit sB dB) := by
  have hden : dA.Denom = dB.Denom := by
    have h0 := congrArg PrivateDeposit.Denom hd
    exact h0
  have hidx : dA.Index = dB.Index := by
    have h0 := congrArg PrivateDeposit.Index hd
    exact h0
  rw [eraseState_SetDeposit, eraseState_SetDeposit, hs, hd, hden, hidx]

theorem eraseDeposit_setNullifier (dA dB : PrivateDeposit) (n : List Nat)
    (h : eraseDeposit dA = eraseDeposit dB) :
    eraseDeposit { dA with Nullifier := some n } = eraseDeposit { dB with Nullifier := some n } := by
  cases dA
  cases dB
  simp [eraseDeposit, eraseCommitment] at h ⊢
  obtain ⟨h1, h2, h4, h5, h6, h7, h8⟩ := h
  exact ⟨h1, h2, h4, h5, h7, h8⟩

theorem keeperVerifyNullifierSignature_ota (d d' : PrivateDeposit) (n s : List Nat)
    (h : d.OneTimeAddress = d'.OneTimeAddress) :
    keeperVerifyNullifierSignature d n s = keeperVerifyNullifierSignature d' n s := by
  simp only [keeperVerifyNullifierSignature, h]

/-- One transfer input is processed the same way, up to commitment erasure,
from two states that agree after commitment erasure: `processInput` reads a
deposit's one-time address and nullifier but never its commitment. -/
theorem processInput_erase (ctx : Ctx) (params : Params) (denom : List Nat)
    (stA stB : ChainState) (input : TransferInput) (hst : eraseState stA = eraseState stB) :
    (processInput ctx params denom stA input).map eraseState =
      (processInput ctx params denom stB input).map eraseState := by
  have hnul : stA.nullifiers = stB.nullifiers := by
    have h0 := congrArg ChainState.nullifiers hst
    exact h0
  have hdeps : (kvGet stA.deposits (denom, input.DepositIndex)).map eraseDeposit =
      (kvGet stB.deposits (denom, input.DepositIndex)).map eraseDeposit := by
    have h : stA.deposits.map (fun kv => (kv.1, eraseDeposit kv.2)) =
        stB.deposits.map (fun kv => (kv.1, eraseDeposit kv.2)) := congrArg ChainState.deposits hst
    rw [← kvGet_map_erase, ← kvGet_map_erase, h]
  by_cases h1 : input.Nullifier.length = 0
  · simp [processInput, h1]
  by_cases h2 : (kvGet stB.nullifiers input.Nullifier).isSome = true
  · simp [processInput, CheckNullifierUsed, IsNullifierUsed, h1, h2, hnul]
  by_cases hph : params.Phase = phase1Str
  · cases hA : kvGet stA.deposits (denom, input.DepositIndex) with
    | none =>
      cases hB : kvGet stB.deposits (denom, input.DepositIndex) with
      | none =>
        simp [processInput, CheckNullifierUsed, IsNullifierUsed, GetDeposit, h1, h2, hnul, hph, hA, hB]
      | some dB =>
        rw [hA, hB] at hdeps
        simp at hdeps
    | some dA =>
      cases hB : kvGet stB.deposits (denom, input.DepositIndex) with
      | none =>
        rw [hA, hB] at hdeps
        simp at hdeps
      | some dB =>
        rw [hA, hB] at hdeps
        simp only [Option.map_some', Option.some.injEq] at hdeps
        have hd : eraseDeposit dA = eraseDeposit dB := hdeps
        have hOTA : dA.OneTimeAddress = dB.OneTimeAddress := by
          have h0 := congrArg PrivateDeposit.OneTimeAddress hd
          exact h0
        have hsigeq := keeperVerifyNullifierSignature_ota dA dB input.Nullifier input.Signature hOTA
        by_cases hsl : input.Signature.length = 0
        · simp [processInput, CheckNullifierUsed, IsNullifierUsed, GetDeposit, h1, h2, hnul, hph, hA, hB, hsl]
        by_cases hsig : keeperVerifyNullifierSignature dA input.Nullifier input.Signature = false
        · have hsB : keeperVerifyNullifierSignature dB input.Nullifier input.Signature = false := by
            rw [← hsigeq]
            exact hsig
          simp [processInput, CheckNullifierUsed, IsNullifierUsed, GetDeposit, h1, h2, hnul, hph, hA, hB, hsl, hsig, hsB]
        have hsB : ¬ keeperVerifyNullifierSignature dB input.Nullifier input.Signature = false := by
          rw [← hsigeq]
          exact hsig
        have key := eraseState_SetDeposit_congr stA stB
          { dA with Nullifier := some input.Nullifier } { dB with Nullifier := some input.Nullifier }
          hst (eraseDeposit_setNullifier dA dB input.Nullifier hd)
        simp [processInput, CheckNullifierUsed, IsNullifierUsed, GetDeposit, h1, h2, hnul, hph, hA, hB, hsl, hsig, hsB, eraseState_SetNullifierUsed, key]
  · simp [processInput, CheckNullifierUsed, IsNullifierUsed, h1, h2, hnul, hph, eraseState_SetNullifierUsed, hst]

/-- `processInputs` lifted to whole input lists. -/
theorem processInputs_erase (ctx : Ctx) (params : Params) (denom : List Nat)
    (inputs : List TransferInput) :
    ∀ stA stB : ChainState, eraseState stA = eraseState stB →
    (processInputs ctx params denom stA inputs).map eraseState =
      (processInputs ctx params denom stB inputs).map eraseState := by
  induction inputs with
  | nil =>
    intro stA stB hst
    simp [processInputs, hst]
  | cons i rest ih =>
    intro stA stB hst
    have h := processInput_erase ctx params denom stA stB i hst
    cases hA : processInput ctx params denom stA i with
    | none =>
      cases hB : processInput ctx params denom stB i with
      | none => simp [processInputs, hA, hB]
      | some s =>
        rw [hA, hB] at h
        simp at h
    | some sA =>
      cases hB : processInput ctx params denom stB i with
      | none =>
        rw [hA, hB] at h
        simp at h
      | some sB =>
        rw [hA, hB] at h
        simp only [Option.map_some', Option.some.injEq] at h
        simp only [processInputs, hA, hB]
        exact ih sA sB h

/-- The per-output validation depends only on the erased output, once both
commitment points pass the structural check. -/
theorem validateOutput_erase (denom : List Nat) (oA oB : TransferOutput)
    (h : eraseOutput oA = eraseOutput oB)
    (hA : validateECPoint oA.Commitment.Commitment = true)
    (hB : validateECPoint oB.Commitment.Commitment = true) :
    validateOutput denom oA = validateOutput denom oB := by
  have h1 : oA.Denom = oB.Denom := by
    have h0 := congrArg TransferOutput.Denom h
    exact h0
  have h2 : oA.OneTimeAddress = oB.OneTimeAddress := by
    have h0 := congrArg TransferOutput.OneTimeAddress h
    exact h0
  have h3 : oA.EncryptedNote = oB.EncryptedNote := by
    have h0 := congrArg TransferOutput.EncryptedNote h
    exact h0
  simp only [validateOutput, h1, h2, h3, hA, hB]

/-- One transfer output is processed the same way, up to commitment erasure:
the output's commitment point is only length-checked and stored. -/
theorem processOutput_erase (ctx : Ctx) (denom : List Nat) (stA stB : ChainState)
    (oA oB : TransferOutput) (hst : eraseState stA = eraseState stB)
    (ho : eraseOutput oA = eraseOutput oB)
    (hvA : validateECPoint oA.Commitment.Commitment = true)
    (hvB : validateECPoint oB.Commitment.Commitment = true) :
    (processOutput ctx denom stA oA).map (fun p => (eraseState p.1, p.2)) =
      (processOutput ctx denom stB oB).map (fun p => (eraseState p.1, p.2)) := by
  have hval := validateOutput_erase denom oA oB ho hvA hvB
  by_cases hv : validateOutput denom oA = false
  · have hv2 : validateOutput denom oB = false := by
      rw [← hval]
      exact hv
    simp [processOutput, hv, hv2]
  · have hv2 : ¬ validateOutput denom oB = false := by
      rw [← hval]
      exact hv
    have hnext : stA.nextIndex = stB.nextIndex := by
      have h0 := congrArg ChainState.nextIndex hst
      exact h0
    have hidx : GetNextDepositIndex stA denom = GetNextDepositIndex stB denom := by
      simp only [GetNextDepositIndex, hnext]
    have hstep : eraseState (SetNextDepositIndex stA denom (GetNextDepositIndex stB denom + 1)) =
        eraseState (SetNextDepositIndex stB denom (GetNextDepositIndex stB denom + 1)) := by
      rw [eraseState_SetNextDepositIndex, eraseState_SetNextDepositIndex, hst, hnext]
    have h2 : oA.OneTimeAddress = oB.OneTimeAddress := by
      have h0 := congrArg TransferOutput.OneTimeAddress ho
      exact h0
    have h3 : oA.EncryptedNote = oB.EncryptedNote := by
      have h0 := congrArg TransferOutput.EncryptedNote ho
      exact h0
    have hdep : eraseDeposit { Denom := denom, Index := GetNextDepositIndex stB denom, Commitment := oA.Commitment, OneTimeAddress := oA.OneTimeAddress, EncryptedNote := oA.EncryptedNote, Nullifier := none, CreatedAtHeight := ctx.blockHeight, TxHash := hexUpper ctx.txBytes } = eraseDeposit { Denom := denom, Index := GetNextDepositIndex stB denom, Commitment := oB.Commitment, OneTimeAddress := oB.OneTimeAddress, EncryptedNote := oB.EncryptedNote, Nullifier := none, CreatedAtHeight := ctx.blockHeight, TxHash := hexUpper ctx.txBytes } := by
      simp [eraseDeposit, eraseCommitment, h2, h3]
    have hfin := eraseState_SetDeposit_congr _ _ _ _ hstep hdep
    simp [processOutput, IncrementDepositIndex, hv, hv2, hidx, hfin]

/-- `processOutputs` lifted to whole output lists. -/
theorem processOutputs_erase (ctx : Ctx) (denom : List Nat) (outsA : List TransferOutput) :
    ∀ (outsB : List TransferOutput) (stA stB : ChainState),
    eraseState stA = eraseState stB →
    outsA.map eraseOutput = outsB.map eraseOutput →
    (∀ o ∈ outsA, validateECPoint o.Commitment.Commitment = true) →
    (∀ o ∈ outsB, validateECPoint o.Commitment.Commitment = true) →
    (processOutputs ctx denom stA outsA).map (fun p => (eraseState p.1, p.2)) =
      (processOutputs ctx denom stB outsB).map (fun p => (eraseState p.1, p.2)) := by
  induction outsA with
  | nil =>
    intro outsB stA stB hst hmap _ _
    cases outsB with
    | nil => simp [processOutputs, hst]
    | cons o rest => simp at hmap
  | cons oA restA ih =>
    intro outsB stA stB hst hmap hvA hvB
    cases outsB with
    | nil => simp at hmap
    | cons oB restB =>
      simp only [List.map_cons, List.cons.injEq] at hmap
      obtain ⟨ho, hrest⟩ := hmap
      have hvA1 : validateECPoint oA.Commitment.Commitment = true := hvA oA (by simp)
      have hvB1 : validateECPoint oB.Commitment.Commitment = true := hvB oB (by simp)
      have hPO := processOutput_erase ctx denom stA stB oA oB hst ho hvA1 hvB1
      cases hA : processOutput ctx denom stA oA with
      | none =>
        cases hB : processOutput ctx denom stB oB with
        | none => simp [processOutputs, hA, hB]
        | some p =>
          rw [hA, hB] at hPO
          simp at hPO
      | some pA =>
        cases hB : processOutput ctx denom stB oB with
        | none =>
          rw [hA, hB] at hPO
          simp at hPO
        | some pB =>
          obtain ⟨sA1, iA⟩ := pA
          obtain ⟨sB1, iB⟩ := pB
          rw [hA, hB] at hPO
          simp only [Option.map_some', Option.some.injEq, Prod.mk.injEq] at hPO
          obtain ⟨hs1, hi1⟩ := hPO
          have hvA2 : ∀ o ∈ restA, validateECPoint o.Commitment.Commitment = true :=
            fun o hmem => hvA o (by simp [hmem])
          have hvB2 : ∀ o ∈ restB, validateECPoint o.Commitment.Commitment = true :=
            fun o hmem => hvB o (by simp [hmem])
          have hrec := ih restB sA1 sB1 hs1 hrest hvA2 hvB2
          cases hRA : processOutputs ctx denom sA1 restA with
          | none =>
            cases hRB : processOutputs ctx denom sB1 restB with
            | none => simp [processOutputs, hA, hB, hRA, hRB]
            | some p =>
              rw [hRA, hRB] at hrec
              simp at hrec
          | some pRA =>
            cases hRB : processOutputs ctx denom sB1 restB with
            | none =>
              rw [hRA, hRB] at hrec
              simp at hrec
            | some pRB =>
              obtain ⟨sA2, idxsA⟩ := pRA
              obtain ⟨sB2, idxsB⟩ := pRB
              rw [hRA, hRB] at hrec
              simp only [Option.map_some', Option.some.injEq, Prod.mk.injEq] at hrec
              obtain ⟨hs2, hi2⟩ := hrec
              simp [processOutputs, hA, hB, hRA, hRB, hs2, hi2, hi1]

/-- C6: `PrivateTransfer`'s accept/reject decision is independent of the
committed values. For any two states and messages that agree once every
commitment point (input deposits' stored commitments, output commitments,
balance commitment) is erased, with all message commitment points passing the
structural validation, the handler reaches the same accept/reject outcome: no
homomorphic balance equation over the commitments is evaluated on-ledger. -/
theorem C6_transfer_commitment_independent (stA stB : ChainState) (ctx : Ctx)
    (msgA msgB : MsgPrivateTransfer)
    (hst : eraseState stA = eraseState stB)
    (hmsg : eraseMsg msgA = eraseMsg msgB)
    (hvA : ∀ o ∈ msgA.Outputs, validateECPoint o.Commitment.Commitment = true)
    (hvB : ∀ o ∈ msgB.Outputs, validateECPoint o.Commitment.Commitment = true)
    (hbA : validateECPoint msgA.BalanceCommitment.Commitment = true)
    (hbB : validateECPoint msgB.BalanceCommitment.Commitment = true) :
    (PrivateTransfer stA ctx msgA).isSome = (PrivateTransfer stB ctx msgB).isSome := by
  have hparams : stA.params = stB.params := by
    have h0 := congrArg ChainState.params hst
    exact h0
  have hden : msgA.Denom = msgB.Denom := by
    have h0 := congrArg MsgPrivateTransfer.Denom hmsg
    exact h0
  have hin : msgA.Inputs = msgB.Inputs := by
    have h0 := congrArg MsgPrivateTransfer.Inputs hmsg
    exact h0
  have hzkp : msgA.ZkProof = msgB.ZkProof := by
    have h0 := congrArg MsgPrivateTransfer.ZkProof hmsg
    exact h0
  have hout : msgA.Outputs.map eraseOutput = msgB.Outputs.map eraseOutput := by
    have h0 := congrArg MsgPrivateTransfer.Outputs hmsg
    exact h0
  have houtlen : msgA.Outputs.length = msgB.Outputs.length := by
    have h := congrArg List.length hout
    simpa using h
  have hbA2 : ¬ validateECPoint msgA.BalanceCommitment.Commitment = false := by simp [hbA]
  have hbB2 : ¬ validateECPoint msgB.BalanceCommitment.Commitment = false := by simp [hbB]
  simp only [PrivateTransfer, GetParams, hparams, hden, hin, hzkp, houtlen]
  by_cases hEn : stB.params.Enabled = false
  · simp [hEn]
  by_cases hmem : ¬ msgB.Denom ∈ stB.params.AllowedDenoms
  · simp [hEn, hmem]
  by_cases hl1 : msgB.Inputs.length = 0
  · simp [hEn, hmem, hl1]
  by_cases hl2 : stB.params.MaxDepositsPerTx < msgB.Inputs.length
  · simp [hEn, hmem, hl1, hl2]
  by_cases hl3 : msgB.Outputs.length = 0
  · simp [hEn, hmem, hl1, hl2, hl3]
  by_cases hl4 : stB.params.MaxDepositsPerTx < msgB.Outputs.length
  · simp [hEn, hmem, hl1, hl2, hl3, hl4]
  have hPI := processInputs_erase ctx stB.params msgB.Denom msgB.Inputs stA stB hst
  cases hA : processInputs ctx stB.params msgB.Denom stA msgB.Inputs with
  | none =>
    cases hB : processInputs ctx stB.params msgB.Denom stB msgB.Inputs with
    | none => simp [hEn, hmem, hl1, hl2, hl3, hl4, hA, hB]
    | some s =>
      rw [hA, hB] at hPI
      simp at hPI
  | some s1A =>
    cases hB : processInputs ctx stB.params msgB.Denom stB msgB.Inputs with
    | none =>
      rw [hA, hB] at hPI
      simp at hPI
    | some s1B =>
      rw [hA, hB] at hPI
      simp only [Option.map_some', Option.some.injEq] at hPI
      by_cases hpz : stB.params.Phase = phase2Str ∧ msgB.ZkProof.length = 0
      · simp [hEn, hmem, hl1, hl2, hl3, hl4, hA, hB, hbA2, hbB2, hpz]
      have hPO := processOutputs_erase ctx msgB.Denom msgA.Outputs msgB.Outputs s1A s1B hPI hout hvA hvB
      cases hOA : processOutputs ctx msgB.Denom s1A msgA.Outputs with
      | none =>
        cases hOB : processOutputs ctx msgB.Denom s1B msgB.Outputs with
        | none => simp [hEn, hmem, hl1, hl2, hl3, hl4, hA, hB, hbA2, hbB2, hpz, hOA, hOB]
        | some p =>
          rw [hOA, hOB] at hPO
          simp at hPO
      | some pA =>
        cases hOB : processOutputs ctx msgB.Denom s1B msgB.Outputs with
        | none =>
          rw [hOA, hOB] at hPO
          simp at hPO
        | some pB =>
          obtain ⟨st2A, idxsA⟩ := pA
          obtain ⟨st2B, idxsB⟩ := pB
          simp [hEn, hmem, hl1, hl2, hl3, hl4, hA, hB, hbA2, hbB2, hpz, hOA, hOB]
          by_cases hc : stB.params.Phase = phase2Str ∧ msgB.ZkProof = []
          · simp [hc]
          · simp [hc]

def c6AltCommitment : TypesCommitment := ⟨⟨List.replicate 32 5, List.replicate 32 6⟩⟩

def c6Output : TransferOutput := { dummyOutput with Commitment := c6AltCommitment }

def c6MsgB : MsgPrivateTransfer :=
  { c1Msg1 with Outputs := [c6Output], BalanceCommitment := ⟨⟨List.replicate 32 7, List.replicate 32 8⟩⟩ }

def c6StateB : ChainState :=
  updateDepositCommitment c1State ulightStr 0 ⟨⟨List.replicate 32 9, List.replicate 32 1⟩⟩

theorem C6_transfer_commitment_independent_witness :
    eraseState c1State = eraseState c6StateB ∧
    eraseMsg c1Msg1 = eraseMsg c6MsgB ∧
    (PrivateTransfer c1State c1Ctx c1Msg1).isSome = (PrivateTransfer c6StateB c1Ctx c6MsgB).isSome :=
  ⟨by decide, by decide,
    C6_transfer_commitment_independent c1State c6StateB c1Ctx c1Msg1 c6MsgB
      (by decide) (by decide) (by decide) (by decide) (by decide) (by decide)⟩
